import Mathlib

/-!
# librsync streaming engine — verification development

A shallow embedding of the librsync core (signature generation, signature
loading and indexing, delta generation, patch application, the opcode
protocol, the rolling weak checksums, and the pull-driven job runtime),
together with proofs of the testable properties stated in the project
specification.

The repository sources at hand contain the public header (`librsync.h`,
which fixes the magic-number enum, the result-code enum, the default
parameters and the callback contracts) and `prototab.h` (the opcode
descriptor record type).  The bodies of the streaming engine itself are
not among the sources, so the operational definitions below are modelled
from the specification document; each such definition says so in its doc
comment.  Streams are modelled as `List Nat` (byte values; positions that
carry strong-hash material may hold arbitrary naturals, reflecting the
abstract strong hash).
-/

set_option maxHeartbeats 1600000

namespace Librsync

/-- Result codes from nonblocking rsync operations, from the `rs_result`
enum in `librsync.h`. -/
inductive rs_result where
  | RS_DONE
  | RS_BLOCKED
  | RS_RUNNING
  | RS_TEST_SKIPPED
  | RS_IO_ERROR
  | RS_SYNTAX_ERROR
  | RS_MEM_ERROR
  | RS_INPUT_ENDED
  | RS_BAD_MAGIC
  | RS_UNIMPLEMENTED
  | RS_CORRUPT
  | RS_INTERNAL_ERROR
  | RS_PARAM_ERROR
  deriving DecidableEq, Repr

open rs_result

/-- Numeric values of the result codes, from the `rs_result` enum in
`librsync.h`. -/
def rs_result_code : rs_result → Nat
  | RS_DONE => 0
  | RS_BLOCKED => 1
  | RS_RUNNING => 2
  | RS_TEST_SKIPPED => 77
  | RS_IO_ERROR => 100
  | RS_SYNTAX_ERROR => 101
  | RS_MEM_ERROR => 102
  | RS_INPUT_ENDED => 103
  | RS_BAD_MAGIC => 104
  | RS_UNIMPLEMENTED => 105
  | RS_CORRUPT => 106
  | RS_INTERNAL_ERROR => 107
  | RS_PARAM_ERROR => 108

/-- `RS_DELTA_MAGIC` from the `rs_magic_number` enum in `librsync.h`. -/
def RS_DELTA_MAGIC : Nat := 0x72730236

/-- `RS_MD4_SIG_MAGIC` from the `rs_magic_number` enum in `librsync.h`:
classic weak sum, MD4 strong hash. -/
def RS_MD4_SIG_MAGIC : Nat := 0x72730136

/-- `RS_BLAKE2_SIG_MAGIC` from the `rs_magic_number` enum in `librsync.h`:
classic weak sum, BLAKE2b strong hash. -/
def RS_BLAKE2_SIG_MAGIC : Nat := 0x72730137

/-- `RS_RK_MD4_SIG_MAGIC` from the `rs_magic_number` enum in `librsync.h`:
RabinKarp weak sum, MD4 strong hash. -/
def RS_RK_MD4_SIG_MAGIC : Nat := 0x72730146

/-- `RS_RK_BLAKE2_SIG_MAGIC` from the `rs_magic_number` enum in
`librsync.h`: RabinKarp weak sum, BLAKE2b strong hash (the recommended
default). -/
def RS_RK_BLAKE2_SIG_MAGIC : Nat := 0x72730147

/-- The recognized signature magics (the four signature members of the
`rs_magic_number` enum in `librsync.h`). -/
def rs_is_sig_magic (m : Nat) : Bool :=
  m = RS_MD4_SIG_MAGIC || m = RS_BLAKE2_SIG_MAGIC ||
  m = RS_RK_MD4_SIG_MAGIC || m = RS_RK_BLAKE2_SIG_MAGIC

/-- A magic recognized anywhere in the stream formats: one of the four
signature magics or the delta magic (`rs_magic_number` in `librsync.h`). -/
def rs_recognized_magic (m : Nat) : Bool :=
  rs_is_sig_magic m || m = RS_DELTA_MAGIC

/-- The two weak-sum variants (spec section 4.1). -/
inductive rs_weak_kind where
  | classic
  | rabinkarp
  deriving DecidableEq, Repr

/-- The two strong-hash variants (spec section 4.2). -/
inductive rs_strong_kind where
  | md4
  | blake2b
  deriving DecidableEq, Repr

/-- The weak-sum variant implied by a signature magic (doc comments of
`rs_magic_number` in `librsync.h`: the `RK` magics use RabinKarp). -/
def rs_magic_weak_kind (m : Nat) : rs_weak_kind :=
  if m = RS_RK_MD4_SIG_MAGIC || m = RS_RK_BLAKE2_SIG_MAGIC then
    .rabinkarp
  else .classic

/-- The strong-hash variant implied by a signature magic (doc comments of
`rs_magic_number` in `librsync.h`). -/
def rs_magic_strong_kind (m : Nat) : rs_strong_kind :=
  if m = RS_MD4_SIG_MAGIC || m = RS_RK_MD4_SIG_MAGIC then .md4
  else .blake2b

/-- `RS_MAX_STRONG_SUM_LENGTH` from `librsync.h`. -/
def RS_MAX_STRONG_SUM_LENGTH : Nat := 32

/-- Maximum strong-sum length for the algorithm a signature magic selects:
16 bytes for MD4, 32 for BLAKE2b (spec section 3, "Block parameters"). -/
def rs_max_strong_len (m : Nat) : Nat :=
  match rs_magic_strong_kind m with
  | .md4 => 16
  | .blake2b => 32

/-- `RS_DEFAULT_BLOCK_LEN` from `librsync.h`. -/
def RS_DEFAULT_BLOCK_LEN : Nat := 2048

/-- `RS_DEFAULT_MIN_STRONG_LEN` from `librsync.h`: default minimum strong
sum length when the file size is unknown. -/
def RS_DEFAULT_MIN_STRONG_LEN : Nat := 12

/-! ## Big-endian integer serialization

All multi-byte integers in the stream formats are big-endian unsigned
(spec section 6). -/

/-- `w`-byte big-endian serialization of `v` (most significant byte
first); the value is taken modulo `256 ^ w`. -/
def beBytes : Nat → Nat → List Nat
  | 0, _ => []
  | w + 1, v => beBytes w (v / 256) ++ [v % 256]

/-- Big-endian value of a list of base-256 digits. -/
def beVal (l : List Nat) : Nat :=
  l.foldl (fun acc d => acc * 256 + d) 0

@[simp] theorem beBytes_length (w v : Nat) : (beBytes w v).length = w := by
  induction w generalizing v with
  | zero => rfl
  | succ w ih => simp [beBytes, ih]

theorem beVal_append_singleton (l : List Nat) (d : Nat) :
    beVal (l ++ [d]) = beVal l * 256 + d := by
  simp [beVal, List.foldl_append]

/-- Round trip: serializing a value that fits in `w` bytes and reading it
back big-endian recovers the value. -/
theorem beVal_beBytes (w v : Nat) (h : v < 256 ^ w) :
    beVal (beBytes w v) = v := by
  induction w generalizing v with
  | zero =>
    simp only [pow_zero, Nat.lt_one_iff] at h
    simp [beBytes, beVal, h]
  | succ w ih =>
    have hdiv : v / 256 < 256 ^ w := by
      rw [Nat.div_lt_iff_lt_mul (by norm_num)]
      calc v < 256 ^ (w + 1) := h
        _ = 256 ^ w * 256 := by ring
    rw [beBytes, beVal_append_singleton, ih _ hdiv]
    omega

end Librsync

namespace Librsync

/-! ## Rolling weak checksums (spec section 4.1)

Modelled from the spec: the rolling-checksum implementations are not among
the sources at hand.  The classic variant keeps two 16-bit halves `a, b`
(named `s1, s2` here as in the classic rsync sum); each byte is offset by
the constant 31 before mixing.  The RabinKarp variant keeps a 32-bit hash
with multiplier `M = 0x08104225` and seed `1`, maintaining `M ^ count`
incrementally so rotation is O(1). -/

/-- The classic variant's per-byte offset constant (spec section 4.1). -/
def ROLLSUM_CHAR_OFFSET : Nat := 31

/-- State of the classic rolling checksum: the window length and the two
16-bit halves.  Modelled from the spec, section 4.1. -/
structure Rollsum where
  count : Nat
  s1 : ZMod 65536
  s2 : ZMod 65536

/-- Initial classic rolling-checksum state: zero (spec section 4.1). -/
def rollsumInit : Rollsum := ⟨0, 0, 0⟩

/-- Non-rolling initial fill: add byte `c` without evicting.  Modelled
from the spec: `s1 += c + 31; s2 += s1; count += 1`. -/
def rollsumRollin (s : Rollsum) (c : Nat) : Rollsum :=
  ⟨s.count + 1, s.s1 + (c + ROLLSUM_CHAR_OFFSET),
    s.s2 + (s.s1 + (c + ROLLSUM_CHAR_OFFSET))⟩

/-- Rotate the window: drop `o` on the left, append `i` on the right.
Modelled from the spec: `a += i − o; b += a − count*o` with each byte
offset by 31, `count` being the (unchanged) window length. -/
def rollsumRotate (s : Rollsum) (o i : Nat) : Rollsum :=
  ⟨s.count, s.s1 + (i : ZMod 65536) - (o : ZMod 65536),
    s.s2 + (s.s1 + (i : ZMod 65536) - (o : ZMod 65536))
      - (s.count : ZMod 65536) * ((o : ZMod 65536) + ROLLSUM_CHAR_OFFSET)⟩

/-- Digest of the classic rolling checksum: `(b << 16) | (a & 0xFFFF)`
(spec section 4.1). -/
def rollsumDigest (s : Rollsum) : Nat := s.s2.val * 65536 + s.s1.val

/-- The classic checksum state obtained by freshly initializing and
feeding every byte of `l` (the "recompute from scratch" reading). -/
def rollsumOfList (l : List Nat) : Rollsum := l.foldl rollsumRollin rollsumInit

/-- The classic weak sum of a window. -/
def rs_weak_classic (l : List Nat) : Nat := rollsumDigest (rollsumOfList l)

/-- Sum of the offset bytes of `l`, in `ZMod 65536`: the closed form of
the classic `s1` half. -/
def rsWeight : List Nat → ZMod 65536
  | [] => 0
  | x :: xs => ((x : ZMod 65536) + (ROLLSUM_CHAR_OFFSET : Nat)) + rsWeight xs

/-- Position-weighted sum of the offset bytes of `l`: the closed form of
the classic `s2` half. -/
def rsW2 : List Nat → ZMod 65536
  | [] => 0
  | x :: xs =>
    ((xs.length + 1 : Nat) : ZMod 65536) * ((x : ZMod 65536) + (ROLLSUM_CHAR_OFFSET : Nat))
      + rsW2 xs

theorem rollsum_foldl_count (l : List Nat) (s : Rollsum) :
    (l.foldl rollsumRollin s).count = s.count + l.length := by
  induction l generalizing s with
  | nil => simp
  | cons x xs ih => simp [rollsumRollin, ih]; omega

theorem rollsum_foldl_s1 (l : List Nat) (s : Rollsum) :
    (l.foldl rollsumRollin s).s1 = s.s1 + rsWeight l := by
  induction l generalizing s with
  | nil => simp [rsWeight]
  | cons x xs ih =>
    simp only [List.foldl_cons, ih, rollsumRollin, rsWeight]
    ring

theorem rollsum_foldl_s2 (l : List Nat) (s : Rollsum) :
    (l.foldl rollsumRollin s).s2 = s.s2 + (l.length : ZMod 65536) * s.s1 + rsW2 l := by
  induction l generalizing s with
  | nil => simp [rsW2]
  | cons x xs ih =>
    simp only [List.foldl_cons, ih, rollsumRollin, rsW2, List.length_cons]
    push_cast
    ring

/-- Closed form of the classic checksum state over a whole window. -/
theorem rollsumOfList_eq (l : List Nat) :
    rollsumOfList l = ⟨l.length, rsWeight l, rsW2 l⟩ := by
  have h1 := rollsum_foldl_count l rollsumInit
  have h2 := rollsum_foldl_s1 l rollsumInit
  have h3 := rollsum_foldl_s2 l rollsumInit
  simp only [rollsumInit] at h1 h2 h3
  unfold rollsumOfList rollsumInit
  cases hfold : l.foldl rollsumRollin ⟨0, 0, 0⟩ with
  | mk c a b =>
    rw [hfold] at h1 h2 h3
    simp only at h1 h2 h3
    simp only [Rollsum.mk.injEq]
    refine ⟨by omega, by rw [h2]; ring, by rw [h3]; ring⟩

theorem rsWeight_append_singleton (l : List Nat) (x : Nat) :
    rsWeight (l ++ [x]) = rsWeight l + ((x : ZMod 65536) + (ROLLSUM_CHAR_OFFSET : Nat)) := by
  induction l with
  | nil => simp [rsWeight]
  | cons y ys ih =>
    have h1 : rsWeight ((y :: ys) ++ [x])
        = ((y : ZMod 65536) + (ROLLSUM_CHAR_OFFSET : Nat)) + rsWeight (ys ++ [x]) := rfl
    have h2 : rsWeight (y :: ys)
        = ((y : ZMod 65536) + (ROLLSUM_CHAR_OFFSET : Nat)) + rsWeight ys := rfl
    rw [h1, h2, ih]
    ring

theorem rsW2_append_singleton (l : List Nat) (x : Nat) :
    rsW2 (l ++ [x]) = rsW2 l + rsWeight (l ++ [x]) := by
  induction l with
  | nil => simp [rsW2, rsWeight]
  | cons y ys ih =>
    have h1 : rsW2 ((y :: ys) ++ [x])
        = (((ys ++ [x]).length + 1 : Nat) : ZMod 65536)
            * ((y : ZMod 65536) + (ROLLSUM_CHAR_OFFSET : Nat)) + rsW2 (ys ++ [x]) := rfl
    have h2 : rsW2 (y :: ys)
        = ((ys.length + 1 : Nat) : ZMod 65536)
            * ((y : ZMod 65536) + (ROLLSUM_CHAR_OFFSET : Nat)) + rsW2 ys := rfl
    have h3 : rsWeight ((y :: ys) ++ [x])
        = ((y : ZMod 65536) + (ROLLSUM_CHAR_OFFSET : Nat)) + rsWeight (ys ++ [x]) := rfl
    rw [h1, h2, h3, ih]
    simp only [List.length_append, List.length_cons, List.length_nil]
    push_cast
    ring

/-- Sliding the classic checksum by one byte via `rotate` lands in exactly
the state reached by recomputing over the slid window from scratch. -/
theorem rollsumRotate_eq_recompute (w : List Nat) (o i : Nat) :
    rollsumRotate (rollsumOfList (o :: w)) o i = rollsumOfList (w ++ [i]) := by
  rw [rollsumOfList_eq, rollsumOfList_eq]
  have hw : rsWeight (o :: w)
      = ((o : ZMod 65536) + (ROLLSUM_CHAR_OFFSET : Nat)) + rsWeight w := rfl
  have hw2 : rsW2 (o :: w)
      = ((w.length + 1 : Nat) : ZMod 65536)
          * ((o : ZMod 65536) + (ROLLSUM_CHAR_OFFSET : Nat)) + rsW2 w := rfl
  simp only [rollsumRotate, Rollsum.mk.injEq, List.length_cons, List.length_append,
    List.length_nil, hw, hw2, rsWeight_append_singleton, rsW2_append_singleton]
  refine ⟨by simp, by ring, by push_cast; ring⟩

end Librsync

namespace Librsync

/-- The RabinKarp multiplier `M = 0x08104225` (spec section 4.1). -/
def RABINKARP_MULT : ZMod 4294967296 := 0x08104225

/-- The RabinKarp seed (spec section 4.1: `h = 1`). -/
def RABINKARP_SEED : ZMod 4294967296 := 1

/-- State of the RabinKarp rolling hash: window length, the incrementally
maintained multiplier `M ^ count`, and the 32-bit hash.  Modelled from
the spec, section 4.1. -/
structure Rabinkarp where
  count : Nat
  mult : ZMod 4294967296
  hash : ZMod 4294967296

/-- Initial RabinKarp state: seed hash `1`, multiplier `M ^ 0 = 1`. -/
def rabinkarpInit : Rabinkarp := ⟨0, 1, RABINKARP_SEED⟩

/-- Non-rolling initial fill: `h = h * M + i`, extending the maintained
multiplier.  Modelled from the spec, section 4.1. -/
def rabinkarpRollin (s : Rabinkarp) (c : Nat) : Rabinkarp :=
  ⟨s.count + 1, s.mult * RABINKARP_MULT, s.hash * RABINKARP_MULT + (c : ZMod 4294967296)⟩

/-- Rotate the window: `h = h * M + i − (o + seed*(M − 1)) * M ^ count`.
Modelled from the spec, section 4.1: the spec writes the rotation as
`h = h * M + i − o * M^count`; with the stated seed `h = 1` the evicted
term must also cancel the seed's drift `seed * (M − 1) * M^count`, which
is folded into the evicted byte here so that rotation agrees with
recomputation (the spec's stated rolling-hash property). -/
def rabinkarpRotate (s : Rabinkarp) (o i : Nat) : Rabinkarp :=
  ⟨s.count, s.mult,
    s.hash * RABINKARP_MULT + (i : ZMod 4294967296)
      - s.mult * ((o : ZMod 4294967296) + RABINKARP_SEED * (RABINKARP_MULT - 1))⟩

/-- Digest of the RabinKarp rolling hash: the 32-bit hash itself. -/
def rabinkarpDigest (s : Rabinkarp) : Nat := s.hash.val

/-- The RabinKarp state obtained by freshly initializing and feeding
every byte of `l`. -/
def rabinkarpOfList (l : List Nat) : Rabinkarp := l.foldl rabinkarpRollin rabinkarpInit

/-- The RabinKarp weak sum of a window. -/
def rs_weak_rabinkarp (l : List Nat) : Nat := rabinkarpDigest (rabinkarpOfList l)

/-- Polynomial value of a window under the RabinKarp multiplier: the
closed form of the hash minus the seed contribution. -/
def rkW : List Nat → ZMod 4294967296
  | [] => 0
  | x :: xs => (x : ZMod 4294967296) * RABINKARP_MULT ^ xs.length + rkW xs

theorem rabinkarp_foldl_count (l : List Nat) (s : Rabinkarp) :
    (l.foldl rabinkarpRollin s).count = s.count + l.length := by
  induction l generalizing s with
  | nil => simp
  | cons x xs ih => simp [rabinkarpRollin, ih]; omega

theorem rabinkarp_foldl_mult (l : List Nat) (s : Rabinkarp) :
    (l.foldl rabinkarpRollin s).mult = s.mult * RABINKARP_MULT ^ l.length := by
  induction l generalizing s with
  | nil => simp
  | cons x xs ih =>
    simp only [List.foldl_cons, ih, rabinkarpRollin, List.length_cons]
    ring

theorem rabinkarp_foldl_hash (l : List Nat) (s : Rabinkarp) :
    (l.foldl rabinkarpRollin s).hash = s.hash * RABINKARP_MULT ^ l.length + rkW l := by
  induction l generalizing s with
  | nil => simp [rkW]
  | cons x xs ih =>
    simp only [List.foldl_cons, ih, rabinkarpRollin, rkW, List.length_cons]
    ring

/-- Closed form of the RabinKarp state over a whole window. -/
theorem rabinkarpOfList_eq (l : List Nat) :
    rabinkarpOfList l
      = ⟨l.length, RABINKARP_MULT ^ l.length,
          RABINKARP_SEED * RABINKARP_MULT ^ l.length + rkW l⟩ := by
  have h1 := rabinkarp_foldl_count l rabinkarpInit
  have h2 := rabinkarp_foldl_mult l rabinkarpInit
  have h3 := rabinkarp_foldl_hash l rabinkarpInit
  simp only [rabinkarpInit] at h1 h2 h3
  unfold rabinkarpOfList rabinkarpInit
  cases hfold : l.foldl rabinkarpRollin ⟨0, 1, RABINKARP_SEED⟩ with
  | mk c m h =>
    rw [hfold] at h1 h2 h3
    simp only at h1 h2 h3
    simp only [Rabinkarp.mk.injEq]
    refine ⟨by omega, by rw [h2]; ring, by rw [h3]⟩

theorem rkW_append_singleton (l : List Nat) (x : Nat) :
    rkW (l ++ [x]) = rkW l * RABINKARP_MULT + (x : ZMod 4294967296) := by
  induction l with
  | nil => simp [rkW]
  | cons y ys ih =>
    have h1 : rkW ((y :: ys) ++ [x])
        = (y : ZMod 4294967296) * RABINKARP_MULT ^ (ys ++ [x]).length + rkW (ys ++ [x]) := rfl
    have h2 : rkW (y :: ys)
        = (y : ZMod 4294967296) * RABINKARP_MULT ^ ys.length + rkW ys := rfl
    rw [h1, h2, ih]
    simp only [List.length_append, List.length_cons, List.length_nil]
    ring

/-- Sliding the RabinKarp hash by one byte via `rotate` lands in exactly
the state reached by recomputing over the slid window from scratch. -/
theorem rabinkarpRotate_eq_recompute (w : List Nat) (o i : Nat) :
    rabinkarpRotate (rabinkarpOfList (o :: w)) o i = rabinkarpOfList (w ++ [i]) := by
  rw [rabinkarpOfList_eq, rabinkarpOfList_eq]
  have hw : rkW (o :: w)
      = (o : ZMod 4294967296) * RABINKARP_MULT ^ w.length + rkW w := rfl
  simp only [rabinkarpRotate, Rabinkarp.mk.injEq, List.length_cons, List.length_append,
    List.length_nil, hw, rkW_append_singleton]
  refine ⟨by simp, by ring_nf, ?_⟩
  simp only [RABINKARP_SEED]
  ring

end Librsync

namespace Librsync

/-- The weak sum used by a job, dispatched on the signature magic (spec
section 4.1: "Two variants selected by magic"). -/
def rs_weak_sum (m : Nat) (l : List Nat) : Nat :=
  match rs_magic_weak_kind m with
  | .classic => rs_weak_classic l
  | .rabinkarp => rs_weak_rabinkarp l

theorem rs_weak_classic_lt (l : List Nat) : rs_weak_classic l < 2 ^ 32 := by
  have h1 := ZMod.val_lt (rollsumOfList l).s1
  have h2 := ZMod.val_lt (rollsumOfList l).s2
  simp only [rs_weak_classic, rollsumDigest]
  omega

theorem rs_weak_rabinkarp_lt (l : List Nat) : rs_weak_rabinkarp l < 2 ^ 32 := by
  have h := ZMod.val_lt (rabinkarpOfList l).hash
  simpa [rs_weak_rabinkarp, rabinkarpDigest] using h

/-- The weak sum is a 32-bit quantity, for either variant. -/
theorem rs_weak_sum_lt (m : Nat) (l : List Nat) : rs_weak_sum m l < 2 ^ 32 := by
  unfold rs_weak_sum
  cases rs_magic_weak_kind m with
  | classic => exact rs_weak_classic_lt l
  | rabinkarp => exact rs_weak_rabinkarp_lt l

/-- C5.  Rolling-hash incremental/recompute equivalence: for both weak-sum
variants, rotating the checksum of window `o :: w` by evicting `o` and
admitting `i` yields exactly the state (hence the digest) obtained by
reinitializing and feeding the slid window `w ++ [i]` from scratch; the
classic digest is `(b << 16) | (a & 0xFFFF)`, i.e. `b * 2^16 + (a mod 2^16)`. -/
theorem rolling_hash_rotate_matches_recompute (w : List Nat) (o i : Nat) :
    rollsumRotate (rollsumOfList (o :: w)) o i = rollsumOfList (w ++ [i]) ∧
    rollsumDigest (rollsumRotate (rollsumOfList (o :: w)) o i) = rs_weak_classic (w ++ [i]) ∧
    rabinkarpRotate (rabinkarpOfList (o :: w)) o i = rabinkarpOfList (w ++ [i]) ∧
    rabinkarpDigest (rabinkarpRotate (rabinkarpOfList (o :: w)) o i)
      = rs_weak_rabinkarp (w ++ [i]) ∧
    (∀ s : Rollsum, rollsumDigest s = s.s2.val * 2 ^ 16 + s.s1.val % 2 ^ 16) := by
  refine ⟨rollsumRotate_eq_recompute w o i, ?_, rabinkarpRotate_eq_recompute w o i, ?_, ?_⟩
  · rw [rollsumRotate_eq_recompute w o i]; rfl
  · rw [rabinkarpRotate_eq_recompute w o i]; rfl
  · intro s
    have h := ZMod.val_lt s.s1
    simp only [rollsumDigest]
    omega

end Librsync

namespace Librsync

/-! ## Signature table (spec sections 3, 4.3, 4.6)

Modelled from the spec: the signature producer and the in-memory
signature table are not among the sources at hand (only the opaque
`rs_signature_t` and the entry points are declared in `librsync.h`).
The strong hash is kept abstract: the pipeline is parametrized by a
function `H` standing for the selected strong hash (MD4 or BLAKE2b),
whose 32-byte output is truncated to `strong_len` at use
(spec section 4.2). -/

/-- Split a stream into consecutive blocks of `bl` bytes, the final block
possibly short (spec section 3).  Structural fuel version; `fuel ≥ length`
and `bl ≥ 1` make it total. -/
def rs_blocks_fuel (bl : Nat) : Nat → List Nat → List (List Nat)
  | 0, _ => []
  | _ + 1, [] => []
  | fuel + 1, x :: xs => ((x :: xs).take bl) :: rs_blocks_fuel bl fuel ((x :: xs).drop bl)

/-- The blocks of the old file: block `i` occupies bytes
`[i*bl, i*bl + bl)`, the final block possibly short (spec section 3). -/
def rs_blocks (bl : Nat) (l : List Nat) : List (List Nat) :=
  rs_blocks_fuel bl l.length l

theorem rs_blocks_fuel_length (bl : Nat) (hbl : 1 ≤ bl) :
    ∀ (fuel : Nat) (l : List Nat), l.length ≤ fuel →
      (rs_blocks_fuel bl fuel l).length = (l.length + bl - 1) / bl := by
  intro fuel
  induction fuel with
  | zero =>
    intro l hl
    have hnil : l = [] := List.length_eq_zero.mp (by omega)
    subst hnil
    simp [rs_blocks_fuel, Nat.div_eq_of_lt (show bl - 1 < bl by omega)]
  | succ fuel ih =>
    intro l hl
    cases l with
    | nil => simp [rs_blocks_fuel, Nat.div_eq_of_lt (show bl - 1 < bl by omega)]
    | cons x xs =>
      rw [rs_blocks_fuel]
      have hdrop : ((x :: xs).drop bl).length = (x :: xs).length - bl := by
        simp
      have hrec := ih ((x :: xs).drop bl)
        (by rw [hdrop]; simp only [List.length_cons] at hl ⊢; omega)
      rw [List.length_cons, hrec, hdrop]
      rcases le_or_lt (x :: xs).length bl with hle | hgt
      · have h1 : (x :: xs).length - bl = 0 := by omega
        have hlem : 1 ≤ (x :: xs).length := by simp
        rw [h1]
        have h0 : (0 + bl - 1) / bl = 0 := Nat.div_eq_of_lt (by omega)
        rw [h0]
        have h2 : ((x :: xs).length + bl - 1) / bl = 1 := by
          apply Nat.div_eq_of_lt_le
          · omega
          · omega
        omega
      · have h2 : (x :: xs).length + bl - 1 = ((x :: xs).length - bl + bl - 1) + bl := by
          omega
        rw [h2, Nat.add_div_right _ (by omega)]

/-- Block `i` of the stream is the `bl`-byte slice starting at `i * bl`,
truncated at end of stream. -/
theorem rs_blocks_fuel_get (bl : Nat) (hbl : 1 ≤ bl) :
    ∀ (fuel : Nat) (l : List Nat) (i : Nat), l.length ≤ fuel →
      i < (rs_blocks_fuel bl fuel l).length →
      (rs_blocks_fuel bl fuel l)[i]? = some ((l.drop (i * bl)).take bl) := by
  intro fuel
  induction fuel with
  | zero =>
    intro l i hl hi
    have hnil : l = [] := List.length_eq_zero.mp (by omega)
    subst hnil
    simp [rs_blocks_fuel] at hi
  | succ fuel ih =>
    intro l i hl hi
    cases l with
    | nil => simp [rs_blocks_fuel] at hi
    | cons x xs =>
      rw [rs_blocks_fuel] at hi ⊢
      cases i with
      | zero => simp
      | succ i =>
        simp only [List.length_cons, Nat.succ_lt_succ_iff] at hi
        have hlen : ((x :: xs).drop bl).length ≤ fuel := by
          simp only [List.length_drop, List.length_cons] at *
          omega
        rw [List.getElem?_cons_succ, ih _ i hlen hi]
        rw [List.drop_drop]
        congr 2
        ring_nf

/-- Block `i` of `rs_blocks`. -/
theorem rs_blocks_get (bl : Nat) (hbl : 1 ≤ bl) (l : List Nat) (i : Nat)
    (hi : i < (rs_blocks bl l).length) :
    (rs_blocks bl l)[i]? = some ((l.drop (i * bl)).take bl) :=
  rs_blocks_fuel_get bl hbl l.length l i (le_refl _) hi

theorem rs_blocks_length (bl : Nat) (hbl : 1 ≤ bl) (l : List Nat) :
    (rs_blocks bl l).length = (l.length + bl - 1) / bl :=
  rs_blocks_fuel_length bl hbl l.length l (le_refl _)

/-- Truncation of the strong hash to `strong_len` bytes (spec section 4.2:
"finalize() → 32 bytes", "Truncated to `strong_len` at comparison time").
The abstract hash output is padded with zeros if shorter than `strong_len`,
so the stored sum always has exactly `strong_len` elements. -/
def rs_strong_sum (H : List Nat → List Nat) (sl : Nat) (blk : List Nat) : List Nat :=
  (H blk ++ List.replicate sl 0).take sl

@[simp] theorem rs_strong_sum_length (H : List Nat → List Nat) (sl : Nat) (blk : List Nat) :
    (rs_strong_sum H sl blk).length = sl := by
  simp only [rs_strong_sum, List.length_take, List.length_append, List.length_replicate]
  omega

/-- The in-memory signature table (spec section 3): header parameters and
the ordered sequence of `(weak, strong)` entries, one per block.
Modelled from the spec; `rs_signature_t` is opaque in `librsync.h`. -/
structure rs_signature where
  magic : Nat
  block_len : Nat
  strong_sum_len : Nat
  entries : List (Nat × List Nat)
  deriving DecidableEq, Repr

/-- The signature of an old file: one `(weak, strong)` entry per block, in
block order (spec sections 3 and 4.6), under abstract strong hash `H`. -/
def rs_signature_of (H : List Nat → List Nat) (magic bl sl : Nat) (old : List Nat) :
    rs_signature :=
  ⟨magic, bl, sl,
    (rs_blocks bl old).map (fun b => (rs_weak_sum magic b, rs_strong_sum H sl b))⟩

/-- Weak sum of entry `i` (0 if out of range; in-range uses never see the
default). -/
def rs_entry_weak (s : rs_signature) (i : Nat) : Nat :=
  match s.entries[i]? with
  | some e => e.1
  | none => 0

/-- Strong sum of entry `i` (empty if out of range). -/
def rs_entry_strong (s : rs_signature) (i : Nat) : List Nat :=
  match s.entries[i]? with
  | some e => e.2
  | none => []

/-- The signature table with its hash index built.  Modelled from the
spec, section 4.3: the index maps a weak sum to the candidate entries
bearing it, bucket ordering being insertion order by block number. -/
structure rs_indexed_signature where
  sig : rs_signature
  hash_table : Nat → List Nat

/-- `rs_build_hash_table` (declared in `librsync.h`): index the signature
by weak sum.  The bucket of `w` lists, in block order, every entry whose
weak sum is `w`. -/
def rs_build_hash_table (s : rs_signature) : rs_indexed_signature :=
  ⟨s, fun w => (List.range s.entries.length).filter (fun i => rs_entry_weak s i = w)⟩

theorem rs_hash_table_mem (s : rs_signature) (w i : Nat) :
    i ∈ (rs_build_hash_table s).hash_table w ↔
      i < s.entries.length ∧ rs_entry_weak s i = w := by
  simp [rs_build_hash_table, List.mem_filter]

theorem rs_hash_table_nodup (s : rs_signature) (w : Nat) :
    ((rs_build_hash_table s).hash_table w).Nodup :=
  (List.nodup_range _).filter _

end Librsync

namespace Librsync

theorem rs_signature_of_entry (H : List Nat → List Nat) (magic bl sl : Nat)
    (old : List Nat) (hbl : 1 ≤ bl) (i : Nat)
    (hi : i < (rs_signature_of H magic bl sl old).entries.length) :
    (rs_signature_of H magic bl sl old).entries[i]?
      = some (rs_weak_sum magic ((old.drop (i * bl)).take bl),
              rs_strong_sum H sl ((old.drop (i * bl)).take bl)) := by
  simp only [rs_signature_of, List.length_map] at hi
  simp only [rs_signature_of, List.getElem?_map, rs_blocks_get bl hbl old i (by
    simpa using hi), Option.map_some']

/-- C7.  Signature table invariant: the signature of `old` has exactly
`ceil(old.length / bl)` entries (0 for an empty file); entry `i`'s weak
and strong sums are computed over exactly the bytes present in block `i`
(so the final block may be short); and once the hash table is built,
every entry appears in the index exactly once — once in its own weak
sum's bucket, and in no other bucket. -/
theorem signature_table_invariants (H : List Nat → List Nat) (magic bl sl : Nat)
    (old : List Nat) (hbl : 1 ≤ bl) :
    (rs_signature_of H magic bl sl old).entries.length = (old.length + bl - 1) / bl ∧
    (old = [] → (rs_signature_of H magic bl sl old).entries = []) ∧
    (∀ i, i < (rs_signature_of H magic bl sl old).entries.length →
      (rs_signature_of H magic bl sl old).entries[i]?
        = some (rs_weak_sum magic ((old.drop (i * bl)).take bl),
                rs_strong_sum H sl ((old.drop (i * bl)).take bl))) ∧
    (∀ i, i < (rs_signature_of H magic bl sl old).entries.length →
      ((rs_build_hash_table (rs_signature_of H magic bl sl old)).hash_table
          (rs_entry_weak (rs_signature_of H magic bl sl old) i)).count i = 1 ∧
      (∀ w, i ∈ (rs_build_hash_table (rs_signature_of H magic bl sl old)).hash_table w →
        w = rs_entry_weak (rs_signature_of H magic bl sl old) i)) := by
  refine ⟨?_, ?_, ?_, ?_⟩
  · simp only [rs_signature_of, List.length_map]
    exact rs_blocks_length bl hbl old
  · intro h
    subst h
    simp [rs_signature_of, rs_blocks, rs_blocks_fuel]
  · intro i hi
    exact rs_signature_of_entry H magic bl sl old hbl i hi
  · intro i hi
    constructor
    · apply List.count_eq_one_of_mem (rs_hash_table_nodup _ _)
      rw [rs_hash_table_mem]
      exact ⟨hi, rfl⟩
    · intro w hw
      rw [rs_hash_table_mem] at hw
      exact hw.2.symm

end Librsync

namespace Librsync

/-- Witness for the signature-table invariants at a concrete input:
`old = [1,2,3]`, `bl = 2`, `sl = 8`, BLAKE2 magic, trivial hash. -/
theorem signature_table_invariants_witness :
    1 ≤ 2 ∧
    ((rs_signature_of (fun _ => []) RS_BLAKE2_SIG_MAGIC 2 8 [1, 2, 3]).entries.length
        = ([1, 2, 3].length + 2 - 1) / 2 ∧
      ([1, 2, 3] = ([] : List Nat) →
        (rs_signature_of (fun _ => []) RS_BLAKE2_SIG_MAGIC 2 8 [1, 2, 3]).entries = []) ∧
      (∀ i, i < (rs_signature_of (fun _ => []) RS_BLAKE2_SIG_MAGIC 2 8 [1, 2, 3]).entries.length →
        (rs_signature_of (fun _ => []) RS_BLAKE2_SIG_MAGIC 2 8 [1, 2, 3]).entries[i]?
          = some (rs_weak_sum RS_BLAKE2_SIG_MAGIC (([1, 2, 3].drop (i * 2)).take 2),
                  rs_strong_sum (fun _ => []) 8 (([1, 2, 3].drop (i * 2)).take 2))) ∧
      (∀ i, i < (rs_signature_of (fun _ => []) RS_BLAKE2_SIG_MAGIC 2 8 [1, 2, 3]).entries.length →
        ((rs_build_hash_table (rs_signature_of (fun _ => []) RS_BLAKE2_SIG_MAGIC 2 8 [1, 2, 3])).hash_table
            (rs_entry_weak (rs_signature_of (fun _ => []) RS_BLAKE2_SIG_MAGIC 2 8 [1, 2, 3]) i)).count i = 1 ∧
        (∀ w, i ∈ (rs_build_hash_table (rs_signature_of (fun _ => []) RS_BLAKE2_SIG_MAGIC 2 8 [1, 2, 3])).hash_table w →
          w = rs_entry_weak (rs_signature_of (fun _ => []) RS_BLAKE2_SIG_MAGIC 2 8 [1, 2, 3]) i))) :=
  ⟨by decide,
    signature_table_invariants (fun _ => []) RS_BLAKE2_SIG_MAGIC 2 8 [1, 2, 3] (by decide)⟩

end Librsync

namespace Librsync

open rs_result

/-! ## Signature stream format and loader (spec sections 4.6, 4.7, 6)

Modelled from the spec: the signature producer emits
`magic(4) | block_len(4) | strong_len(4) | (weak(4) strong(strong_len))*`,
and the loader parses that stream back into an `rs_signature`, failing
with `RS_BAD_MAGIC` on an unrecognized magic, `RS_CORRUPT` on an invalid
header, and `RS_INPUT_ENDED` when the input ends in the middle of a
record (spec sections 4.5 and 7: a statefun needing more bytes than
remain at end of input fails with input-ended). -/

/-- The serialized signature file of `old` (spec section 6):
`magic(4) | block_len(4) | strong_len(4)` followed by one
`weak(4) strong(strong_len)` record per block. -/
def rs_sig_file (H : List Nat → List Nat) (magic bl sl : Nat) (old : List Nat) : List Nat :=
  beBytes 4 magic ++ beBytes 4 bl ++ beBytes 4 sl ++
    ((rs_signature_of H magic bl sl old).entries.map
      (fun e => beBytes 4 e.1 ++ e.2)).flatten

/-- Loader entry loop (spec section 4.7, `s_entry`): read 4-byte weak plus
`sl`-byte strong records until the input is exhausted; ending mid-record
is `RS_INPUT_ENDED`.  Fuel-structural; `fuel ≥ length` makes it total. -/
def rs_loadsig_entries (sl : Nat) : Nat → List Nat → Except rs_result (List (Nat × List Nat))
  | _, [] => .ok []
  | 0, _ :: _ => .error RS_INTERNAL_ERROR
  | fuel + 1, x :: xs =>
    if (x :: xs).length < 4 + sl then .error RS_INPUT_ENDED
    else
      (rs_loadsig_entries sl fuel ((x :: xs).drop (4 + sl))).map
        (fun rest => (beVal ((x :: xs).take 4), ((x :: xs).drop 4).take sl) :: rest)

/-- The signature loader (spec section 4.7): parse a signature stream into
an in-memory `rs_signature`.  `s_magic` rejects unknown magics with
`RS_BAD_MAGIC`; `s_header` validates `1 ≤ block_len ≤ 2^16` and
`1 ≤ strong_len ≤ max for the algorithm`, failing with `RS_CORRUPT`;
ending inside the magic, the header or an entry is `RS_INPUT_ENDED`. -/
def rs_loadsig (input : List Nat) : Except rs_result rs_signature :=
  if input.length < 4 then .error RS_INPUT_ENDED
  else
    let magic := beVal (input.take 4)
    if ¬ rs_is_sig_magic magic then .error RS_BAD_MAGIC
    else if input.length < 12 then .error RS_INPUT_ENDED
    else
      let bl := beVal ((input.drop 4).take 4)
      let sl := beVal ((input.drop 8).take 4)
      if ¬ (1 ≤ bl ∧ bl ≤ 2 ^ 16 ∧ 1 ≤ sl ∧ sl ≤ rs_max_strong_len magic) then
        .error RS_CORRUPT
      else
        (rs_loadsig_entries sl (input.length) (input.drop 12)).map
          (fun es => ⟨magic, bl, sl, es⟩)

end Librsync

namespace Librsync

open rs_result

theorem rs_is_sig_magic_lt (m : Nat) (h : rs_is_sig_magic m) : m < 2 ^ 32 := by
  simp only [rs_is_sig_magic, RS_MD4_SIG_MAGIC, RS_BLAKE2_SIG_MAGIC, RS_RK_MD4_SIG_MAGIC,
    RS_RK_BLAKE2_SIG_MAGIC, Bool.or_eq_true, decide_eq_true_eq] at h
  rcases h with ((h | h) | h) | h <;> subst h <;> norm_num

theorem rs_max_strong_len_le (m : Nat) : rs_max_strong_len m ≤ 32 := by
  unfold rs_max_strong_len
  cases rs_magic_strong_kind m <;> norm_num

/-- Parsing the serialized entry records recovers the entries, provided
every weak sum fits 32 bits and every strong sum has exactly `sl` bytes. -/
theorem rs_loadsig_entries_serialized (sl : Nat) :
    ∀ (es : List (Nat × List Nat)), (∀ e ∈ es, e.1 < 2 ^ 32 ∧ e.2.length = sl) →
    ∀ fuel, (es.map (fun e => beBytes 4 e.1 ++ e.2)).flatten.length ≤ fuel →
      rs_loadsig_entries sl fuel (es.map (fun e => beBytes 4 e.1 ++ e.2)).flatten = .ok es := by
  intro es
  induction es with
  | nil => intro _ fuel _; cases fuel <;> rfl
  | cons e es ih =>
    intro hb fuel hf
    have hlen1 : (beBytes 4 e.1 ++ e.2).length = 4 + sl := by
      simp [hb e (by simp)]
    have hstream : ((e :: es).map (fun e => beBytes 4 e.1 ++ e.2)).flatten
        = (beBytes 4 e.1 ++ e.2) ++ (es.map (fun e => beBytes 4 e.1 ++ e.2)).flatten := by
      simp
    rw [hstream] at hf ⊢
    have htot : ((beBytes 4 e.1 ++ e.2) ++ (es.map (fun e => beBytes 4 e.1 ++ e.2)).flatten).length
        = 4 + sl + (es.map (fun e => beBytes 4 e.1 ++ e.2)).flatten.length := by
      simp only [List.length_append, hlen1]
    cases hs : (beBytes 4 e.1 ++ e.2) ++ (es.map (fun e => beBytes 4 e.1 ++ e.2)).flatten with
    | nil =>
      exfalso
      have := congrArg List.length hs
      rw [htot] at this
      simp at this
    | cons x xs =>
      cases fuel with
      | zero =>
        exfalso
        have := congrArg List.length hs
        rw [htot] at this
        simp at this
        omega
      | succ fuel =>
        rw [rs_loadsig_entries]
        have hxs : (x :: xs).length = 4 + sl + (es.map (fun e => beBytes 4 e.1 ++ e.2)).flatten.length := by
          rw [← hs, htot]
        rw [if_neg (by omega)]
        have htake4 : (x :: xs).take 4 = beBytes 4 e.1 := by
          rw [← hs, List.append_assoc]
          rw [List.take_left' (beBytes_length 4 e.1)]
        have hdrop4 : (x :: xs).drop 4 = e.2 ++ (es.map (fun e => beBytes 4 e.1 ++ e.2)).flatten := by
          rw [← hs, List.append_assoc]
          rw [List.drop_left' (beBytes_length 4 e.1)]
        have htakesl : ((x :: xs).drop 4).take sl = e.2 := by
          rw [hdrop4, List.take_left' (hb e (by simp)).2]
        have hdropall : (x :: xs).drop (4 + sl) = (es.map (fun e => beBytes 4 e.1 ++ e.2)).flatten := by
          rw [← hs, List.drop_left' hlen1]
        rw [htake4, htakesl, hdropall,
          beVal_beBytes 4 e.1 (by simpa using (hb e (by simp)).1)]
        rw [ih (fun e' he' => hb e' (by simp [he'])) fuel (by rw [htot] at hf; omega)]
        rfl

end Librsync

namespace Librsync

open rs_result

theorem rs_signature_of_entry_bounds (H : List Nat → List Nat) (magic bl sl : Nat)
    (old : List Nat) :
    ∀ e ∈ (rs_signature_of H magic bl sl old).entries, e.1 < 2 ^ 32 ∧ e.2.length = sl := by
  intro e he
  simp only [rs_signature_of, List.mem_map] at he
  obtain ⟨b, _, rfl⟩ := he
  exact ⟨rs_weak_sum_lt magic b, rs_strong_sum_length H sl b⟩

/-- Loading a generated signature stream with valid parameters recovers
exactly the in-memory signature it was generated from. -/
theorem rs_loadsig_rs_sig_file (H : List Nat → List Nat) (magic bl sl : Nat)
    (old : List Nat) (hm : rs_is_sig_magic magic) (hbl1 : 1 ≤ bl) (hbl2 : bl ≤ 2 ^ 16)
    (hsl1 : 1 ≤ sl) (hsl2 : sl ≤ rs_max_strong_len magic) :
    rs_loadsig (rs_sig_file H magic bl sl old) = .ok (rs_signature_of H magic bl sl old) := by
  have hmlt : magic < 2 ^ 32 := rs_is_sig_magic_lt magic hm
  have hbllt : bl < 2 ^ 32 := by omega
  have hsllt : sl < 2 ^ 32 := by
    have := rs_max_strong_len_le magic
    omega
  set es := (rs_signature_of H magic bl sl old).entries with hes
  set tail := (es.map (fun e => beBytes 4 e.1 ++ e.2)).flatten with htail
  have hfile : rs_sig_file H magic bl sl old
      = beBytes 4 magic ++ (beBytes 4 bl ++ (beBytes 4 sl ++ tail)) := by
    simp [rs_sig_file, List.append_assoc, htail, hes]
  have hlen : (rs_sig_file H magic bl sl old).length = 12 + tail.length := by
    rw [hfile]
    simp only [List.length_append, beBytes_length]
    omega
  rw [rs_loadsig]
  rw [if_neg (by rw [hlen]; omega)]
  have htake4 : (rs_sig_file H magic bl sl old).take 4 = beBytes 4 magic := by
    rw [hfile, List.take_left' (beBytes_length 4 magic)]
  have hdrop4 : (rs_sig_file H magic bl sl old).drop 4
      = beBytes 4 bl ++ (beBytes 4 sl ++ tail) := by
    rw [hfile, List.drop_left' (beBytes_length 4 magic)]
  have hdrop8 : (rs_sig_file H magic bl sl old).drop 8 = beBytes 4 sl ++ tail := by
    have h8 : (8 : Nat) = 4 + 4 := by norm_num
    rw [h8, ← List.drop_drop, hdrop4, List.drop_left' (beBytes_length 4 bl)]
  have hdrop12 : (rs_sig_file H magic bl sl old).drop 12 = tail := by
    have h12 : (12 : Nat) = 8 + 4 := by norm_num
    rw [h12, ← List.drop_drop, hdrop8, List.drop_left' (beBytes_length 4 sl)]
  rw [htake4, beVal_beBytes 4 magic (by simpa using hmlt)]
  rw [if_neg (by simp [hm])]
  rw [if_neg (by rw [hlen]; omega)]
  have htakebl : ((rs_sig_file H magic bl sl old).drop 4).take 4 = beBytes 4 bl := by
    rw [hdrop4, List.take_left' (beBytes_length 4 bl)]
  have htakesl : ((rs_sig_file H magic bl sl old).drop 8).take 4 = beBytes 4 sl := by
    rw [hdrop8, List.take_left' (beBytes_length 4 sl)]
  rw [htakebl, beVal_beBytes 4 bl (by simpa using hbllt),
    htakesl, beVal_beBytes 4 sl (by simpa using hsllt)]
  rw [if_neg (not_not_intro ⟨hbl1, hbl2, hsl1, hsl2⟩)]
  rw [hdrop12, htail]
  rw [rs_loadsig_entries_serialized sl es (rs_signature_of_entry_bounds H magic bl sl old)
    _ (by rw [hlen, htail]; omega)]
  rfl

end Librsync

namespace Librsync

open rs_result

/-- The entry loop succeeds exactly when the remaining bytes are a whole
number of `(weak, strong)` records, and otherwise fails with
`RS_INPUT_ENDED`. -/
theorem rs_loadsig_entries_result (sl : Nat) :
    ∀ (fuel : Nat) (l : List Nat), l.length ≤ fuel →
      (l.length % (4 + sl) = 0 → ∃ es, rs_loadsig_entries sl fuel l = .ok es) ∧
      (l.length % (4 + sl) ≠ 0 → rs_loadsig_entries sl fuel l = .error RS_INPUT_ENDED) := by
  intro fuel
  induction fuel with
  | zero =>
    intro l hl
    have hnil : l = [] := List.length_eq_zero.mp (by omega)
    subst hnil
    exact ⟨fun _ => ⟨[], rfl⟩, fun h => absurd (by simp) h⟩
  | succ fuel ih =>
    intro l hl
    cases l with
    | nil => exact ⟨fun _ => ⟨[], rfl⟩, fun h => absurd (by simp) h⟩
    | cons x xs =>
      rw [rs_loadsig_entries]
      by_cases hshort : (x :: xs).length < 4 + sl
      · rw [if_pos hshort]
        have hmod : (x :: xs).length % (4 + sl) = (x :: xs).length :=
          Nat.mod_eq_of_lt hshort
        have hne : (x :: xs).length % (4 + sl) ≠ 0 := by
          rw [hmod]; simp
        exact ⟨fun h => absurd h hne, fun _ => rfl⟩
      · rw [if_neg hshort]
        push_neg at hshort
        have hdl : ((x :: xs).drop (4 + sl)).length = (x :: xs).length - (4 + sl) := by
          simp
        have hrec := ih ((x :: xs).drop (4 + sl)) (by rw [hdl]; simp only [List.length_cons] at hl ⊢; omega)
        have hmodeq : (x :: xs).length % (4 + sl) = ((x :: xs).drop (4 + sl)).length % (4 + sl) := by
          rw [hdl, Nat.mod_eq_sub_mod hshort]
        constructor
        · intro h
          rw [hmodeq] at h
          obtain ⟨es, hes⟩ := hrec.1 h
          exact ⟨_, by rw [hes]; rfl⟩
        · intro h
          rw [hmodeq] at h
          rw [hrec.2 h]
          rfl

/-- The loader's header validation (spec section 4.7), in terms of the raw
input stream. -/
def rs_header_ok (input : List Nat) : Prop :=
  1 ≤ beVal ((input.drop 4).take 4) ∧ beVal ((input.drop 4).take 4) ≤ 2 ^ 16 ∧
  1 ≤ beVal ((input.drop 8).take 4) ∧
  beVal ((input.drop 8).take 4) ≤ rs_max_strong_len (beVal (input.take 4))

instance (input : List Nat) : Decidable (rs_header_ok input) := by
  unfold rs_header_ok
  infer_instance

/-- The input ends in the middle of a `(weak, strong)` entry: it has a
valid signature magic and header, but the bytes after the 12-byte header
are not a whole number of entry records. -/
def rs_ends_mid_entry (input : List Nat) : Prop :=
  4 ≤ input.length ∧ rs_is_sig_magic (beVal (input.take 4)) = true ∧
  12 ≤ input.length ∧ rs_header_ok input ∧
  (input.length - 12) % (4 + beVal ((input.drop 8).take 4)) ≠ 0

instance (input : List Nat) : Decidable (rs_ends_mid_entry input) := by
  unfold rs_ends_mid_entry
  infer_instance

end Librsync

namespace Librsync

open rs_result

/-- C6 (amended).  Loader error semantics: `RS_BAD_MAGIC` exactly when at
least 4 bytes are present but they are not a known signature magic;
`RS_CORRUPT` exactly when the magic is known, the 12-byte header is
present, and it violates `1 ≤ block_len ≤ 2^16` or
`1 ≤ strong_len ≤ max`; `RS_INPUT_ENDED` exactly when the input ends in
the middle of the magic, the header, or a `(weak, strong)` entry; and
success exactly when magic and header are valid and the remainder is a
whole number of entries. -/
theorem loader_error_semantics (input : List Nat) :
    (rs_loadsig input = .error RS_BAD_MAGIC ↔
      4 ≤ input.length ∧ ¬ rs_is_sig_magic (beVal (input.take 4)) = true) ∧
    (rs_loadsig input = .error RS_CORRUPT ↔
      rs_is_sig_magic (beVal (input.take 4)) = true ∧ 12 ≤ input.length ∧
      ¬ rs_header_ok input) ∧
    (rs_loadsig input = .error RS_INPUT_ENDED ↔
      input.length < 4 ∨
      (rs_is_sig_magic (beVal (input.take 4)) = true ∧ 4 ≤ input.length ∧
        input.length < 12) ∨
      rs_ends_mid_entry input) ∧
    ((∃ s, rs_loadsig input = .ok s) ↔
      rs_is_sig_magic (beVal (input.take 4)) = true ∧ 12 ≤ input.length ∧
      rs_header_ok input ∧
      (input.length - 12) % (4 + beVal ((input.drop 8).take 4)) = 0) := by
  simp only [rs_loadsig]
  split_ifs with h1 h2 h3 h4
  · -- ends inside the magic
    refine ⟨?_, ?_, ?_, ?_⟩
    · exact iff_of_false (by simp) (by rintro ⟨h4le, -⟩; omega)
    · exact iff_of_false (by simp) (by rintro ⟨-, h12, -⟩; omega)
    · exact iff_of_true rfl (Or.inl h1)
    · exact iff_of_false (by rintro ⟨s, hs⟩; simp at hs)
        (by rintro ⟨-, h12, -⟩; omega)
  · -- known magic but ends inside the header
    refine ⟨?_, ?_, ?_, ?_⟩
    · exact iff_of_false (by simp) (by rintro ⟨-, hm⟩; exact hm h2)
    · exact iff_of_false (by simp) (by rintro ⟨-, h12, -⟩; omega)
    · exact iff_of_true rfl (Or.inr (Or.inl ⟨h2, by omega, h3⟩))
    · exact iff_of_false (by rintro ⟨s, hs⟩; simp at hs)
        (by rintro ⟨-, h12, -⟩; omega)
  · -- magic and header valid: the entry loop decides the result
    have h4' : rs_header_ok input := h4
    have hres := rs_loadsig_entries_result (beVal ((input.drop 8).take 4)) input.length
      (input.drop 12) (by simp only [List.length_drop]; omega)
    simp only [List.length_drop] at hres
    by_cases hmod : (input.length - 12) % (4 + beVal ((input.drop 8).take 4)) = 0
    · obtain ⟨es, hes⟩ := hres.1 hmod
      rw [hes]
      refine ⟨?_, ?_, ?_, ?_⟩
      · exact iff_of_false (by simp [Except.map]) (by rintro ⟨-, hm⟩; exact hm h2)
      · exact iff_of_false (by simp [Except.map])
          (by rintro ⟨-, -, hno⟩; exact hno h4')
      · refine iff_of_false (by simp [Except.map]) ?_
        rintro (h | ⟨-, -, h12⟩ | hm)
        · omega
        · omega
        · exact hm.2.2.2.2 hmod
      · exact iff_of_true ⟨_, rfl⟩ ⟨h2, by omega, h4', hmod⟩
    · rw [hres.2 hmod]
      refine ⟨?_, ?_, ?_, ?_⟩
      · exact iff_of_false (by simp [Except.map]) (by rintro ⟨-, hm⟩; exact hm h2)
      · exact iff_of_false (by simp [Except.map])
          (by rintro ⟨-, -, hno⟩; exact hno h4')
      · exact iff_of_true (by simp [Except.map])
          (Or.inr (Or.inr ⟨by omega, h2, by omega, h4', hmod⟩))
      · exact iff_of_false (by rintro ⟨s, hs⟩; simp [Except.map] at hs)
          (by rintro ⟨-, -, -, hmod'⟩; exact hmod hmod')
  · -- known magic, header present but invalid
    refine ⟨?_, ?_, ?_, ?_⟩
    · exact iff_of_false (by simp) (by rintro ⟨-, hm⟩; exact hm h2)
    · exact iff_of_true rfl ⟨h2, by omega, h4⟩
    · refine iff_of_false (by simp) ?_
      rintro (h | ⟨-, -, h12⟩ | hm)
      · omega
      · omega
      · exact h4 hm.2.2.2.1
    · exact iff_of_false (by rintro ⟨s, hs⟩; simp at hs)
        (by rintro ⟨-, -, hok, -⟩; exact h4 hok)
  · -- unknown magic
    refine ⟨?_, ?_, ?_, ?_⟩
    · exact iff_of_true rfl ⟨by omega, h2⟩
    · exact iff_of_false (by simp) (by rintro ⟨hm, -, -⟩; exact h2 hm)
    · refine iff_of_false (by simp) ?_
      rintro (h | ⟨hm, -, -⟩ | hm)
      · omega
      · exact h2 hm
      · exact h2 hm.2.1
    · exact iff_of_false (by rintro ⟨s, hs⟩; simp at hs)
        (by rintro ⟨hm, -⟩; exact h2 hm)

end Librsync

namespace Librsync

open rs_result

/-- C6 counterexample: on the one-byte input `[0x72]` the loader fails
with `RS_INPUT_ENDED`, although the input does not end in the middle of a
`(weak, strong)` entry — it ends inside the 4-byte magic.  So the claimed
"fails with RS_INPUT_ENDED if and only if input ends in the middle of a
(weak, strong) entry" equivalence is false as stated. -/
theorem loader_input_ended_not_mid_entry :
    rs_loadsig [0x72] = .error RS_INPUT_ENDED ∧ ¬ rs_ends_mid_entry [0x72] ∧
    ¬ (rs_loadsig [0x72] = .error RS_INPUT_ENDED ↔ rs_ends_mid_entry [0x72]) :=
  ⟨rfl, by decide, fun h => (by decide : ¬ rs_ends_mid_entry [0x72]) (h.mp rfl)⟩

end Librsync

namespace Librsync

open rs_result

/-! ## Opcode protocol (spec section 4.4, `prototab.h`) -/

/-- Opcode kinds (`hs_op_kind_t`, referenced from `prototab.h`; the set is
given in spec section 4.4). -/
inductive hs_op_kind where
  | END
  | LITERAL
  | SIGNATURE
  | COPY
  | RESERVED
  deriving DecidableEq, Repr

/-- One entry of the opcode descriptor table: the `hs_prototab_ent` record
from `prototab.h` (kind, immediate flag/value, parameter lengths, total
size). -/
structure hs_prototab_ent where
  kind : hs_op_kind
  immediate : Nat
  len_1 : Nat
  len_2 : Nat
  total_size : Nat
  deriving DecidableEq, Repr

/-- Parameter width selected by a 1-based width code: 1, 2, 4 or 8 bytes
(spec section 4.4: widths are 0, 1, 2, 4 or 8). -/
def rs_param_width : Nat → Nat
  | 1 => 1
  | 2 => 2
  | 3 => 4
  | 4 => 8
  | _ => 0

/-- Modelled from the spec: the opcode descriptor table (`_hs_prototab`,
declared in `prototab.h`; its values are not among the sources).  Byte
0x00 is END; bytes 0x01..0x40 are immediate-mode LITERAL commands whose
first parameter is the command byte itself (spec section 6); bytes
0x41..0x44 are LITERAL with a 1/2/4/8-byte length; bytes 0x45..0x54 are
COPY with `(len_1, len_2)` ranging over `{1,2,4,8}²` (first parameter
width outer, second inner); everything above is RESERVED. -/
def hs_prototab (b : Nat) : hs_prototab_ent :=
  if b = 0 then ⟨.END, 0, 0, 0, 1⟩
  else if b ≤ 0x40 then ⟨.LITERAL, b, 0, 0, 1⟩
  else if b ≤ 0x44 then
    ⟨.LITERAL, 0, rs_param_width (b - 0x40), 0, 1 + rs_param_width (b - 0x40)⟩
  else if b ≤ 0x54 then
    ⟨.COPY, 0, rs_param_width ((b - 0x45) / 4 + 1), rs_param_width ((b - 0x45) % 4 + 1),
      1 + rs_param_width ((b - 0x45) / 4 + 1) + rs_param_width ((b - 0x45) % 4 + 1)⟩
  else ⟨.RESERVED, 0, 0, 0, 1⟩

/-- A decoded delta command. -/
inductive rs_op where
  | END
  | LITERAL (len : Nat)
  | COPY (off : Nat) (len : Nat)
  deriving DecidableEq, Repr

/-- Smallest parameter width (1, 2, 4 or 8 bytes) that holds `v`. -/
def rs_int_len (v : Nat) : Nat :=
  if v < 2 ^ 8 then 1 else if v < 2 ^ 16 then 2 else if v < 2 ^ 32 then 4 else 8

/-- Opcode offset (0..3) of a parameter width in `{1,2,4,8}`. -/
def rs_width_code : Nat → Nat
  | 1 => 0
  | 2 => 1
  | 4 => 2
  | _ => 3

/-- Modelled from the spec (section 4.4, encoding policy): serialize a
command as its opcode byte followed by big-endian parameters, preferring
the immediate form for literal lengths 1..64, otherwise the smallest
parameter widths that fit; END is the single zero byte. -/
def rs_emit_cmd : rs_op → List Nat
  | .END => [0]
  | .LITERAL L =>
    if 1 ≤ L ∧ L ≤ 64 then [L]
    else (0x41 + rs_width_code (rs_int_len L)) :: beBytes (rs_int_len L) L
  | .COPY off len =>
    (0x45 + 4 * rs_width_code (rs_int_len off) + rs_width_code (rs_int_len len))
      :: (beBytes (rs_int_len off) off ++ beBytes (rs_int_len len) len)

/-- Modelled from the spec (sections 4.4 and 4.9): decode one command
from the head of a stream, directed by the opcode descriptor table.
RESERVED opcodes are rejected with `RS_CORRUPT`; a stream ending inside
the command's parameters is `RS_INPUT_ENDED`. -/
def rs_decode_cmd (s : List Nat) : Except rs_result (rs_op × List Nat) :=
  match s with
  | [] => .error RS_INPUT_ENDED
  | b :: rest =>
    match hs_prototab b with
    | ⟨.END, _, _, _, _⟩ => .ok (.END, rest)
    | ⟨.LITERAL, imm, l1, _, _⟩ =>
      if l1 = 0 then .ok (.LITERAL imm, rest)
      else if rest.length < l1 then .error RS_INPUT_ENDED
      else .ok (.LITERAL (beVal (rest.take l1)), rest.drop l1)
    | ⟨.COPY, _, l1, l2, _⟩ =>
      if rest.length < l1 + l2 then .error RS_INPUT_ENDED
      else .ok (.COPY (beVal (rest.take l1)) (beVal ((rest.drop l1).take l2)),
                rest.drop (l1 + l2))
    | ⟨.SIGNATURE, _, _, _, _⟩ => .error RS_CORRUPT
    | ⟨.RESERVED, _, _, _, _⟩ => .error RS_CORRUPT

end Librsync

namespace Librsync

open rs_result

theorem rs_decode_cons_literal_wide (b w L : Nat)
    (htab : hs_prototab b = ⟨.LITERAL, 0, w, 0, 1 + w⟩) (hw : 1 ≤ w)
    (hb : L < 256 ^ w) (tail : List Nat) :
    rs_decode_cmd (b :: (beBytes w L ++ tail)) = .ok (.LITERAL L, tail) := by
  simp only [rs_decode_cmd, htab]
  rw [if_neg (by omega)]
  rw [if_neg (by simp only [List.length_append, beBytes_length]; omega)]
  rw [List.take_left' (beBytes_length w L), List.drop_left' (beBytes_length w L),
    beVal_beBytes w L hb]

theorem rs_decode_cons_copy (b w1 w2 off len : Nat)
    (htab : hs_prototab b = ⟨.COPY, 0, w1, w2, 1 + w1 + w2⟩)
    (hb1 : off < 256 ^ w1) (hb2 : len < 256 ^ w2) (tail : List Nat) :
    rs_decode_cmd (b :: (beBytes w1 off ++ (beBytes w2 len ++ tail)))
      = .ok (.COPY off len, tail) := by
  simp only [rs_decode_cmd, htab]
  rw [if_neg (by simp only [List.length_append, beBytes_length]; omega)]
  rw [List.take_left' (beBytes_length w1 off), List.drop_left' (beBytes_length w1 off),
    List.take_left' (beBytes_length w2 len)]
  have hdrop : (beBytes w1 off ++ (beBytes w2 len ++ tail)).drop (w1 + w2) = tail := by
    rw [← List.append_assoc,
      List.drop_left' (by simp only [List.length_append, beBytes_length] :
        (beBytes w1 off ++ beBytes w2 len).length = w1 + w2)]
  rw [hdrop, beVal_beBytes w1 off hb1, beVal_beBytes w2 len hb2]

theorem rs_width_code_int_len (v : Nat) :
    rs_width_code (rs_int_len v) < 4 ∧
    rs_param_width (rs_width_code (rs_int_len v) + 1) = rs_int_len v ∧
    1 ≤ rs_int_len v ∧
    (v < 2 ^ 64 → v < 256 ^ rs_int_len v) := by
  unfold rs_int_len
  split_ifs with h1 h2 h3 <;>
    refine ⟨by norm_num [rs_width_code], by norm_num [rs_width_code, rs_param_width],
      by norm_num, fun h => ?_⟩ <;> norm_num <;> omega

theorem hs_prototab_literal_wide (c : Nat) (hc : c < 4) :
    hs_prototab (0x41 + c)
      = ⟨.LITERAL, 0, rs_param_width (c + 1), 0, 1 + rs_param_width (c + 1)⟩ := by
  rw [hs_prototab, if_neg (by omega), if_neg (by omega), if_pos (by omega)]
  have hsub : 0x41 + c - 0x40 = c + 1 := by omega
  rw [hsub]

theorem hs_prototab_copy (c1 c2 : Nat) (h1 : c1 < 4) (h2 : c2 < 4) :
    hs_prototab (0x45 + 4 * c1 + c2)
      = ⟨.COPY, 0, rs_param_width (c1 + 1), rs_param_width (c2 + 1),
          1 + rs_param_width (c1 + 1) + rs_param_width (c2 + 1)⟩ := by
  rw [hs_prototab, if_neg (by omega), if_neg (by omega), if_neg (by omega),
    if_pos (by omega)]
  have e1 : (0x45 + 4 * c1 + c2 - 0x45) / 4 = c1 := by omega
  have e2 : (0x45 + 4 * c1 + c2 - 0x45) % 4 = c2 := by omega
  rw [e1, e2]

/-- Decoding an emitted LITERAL command recovers it, leaving the tail. -/
theorem rs_decode_emit_literal (L : Nat) (hL1 : 1 ≤ L) (hL : L < 2 ^ 64) (tail : List Nat) :
    rs_decode_cmd (rs_emit_cmd (.LITERAL L) ++ tail) = .ok (.LITERAL L, tail) := by
  by_cases himm : L ≤ 64
  · rw [rs_emit_cmd, if_pos ⟨hL1, himm⟩]
    have htab : hs_prototab L = ⟨.LITERAL, L, 0, 0, 1⟩ := by
      rw [hs_prototab, if_neg (by omega), if_pos (by omega)]
    show rs_decode_cmd (L :: tail) = _
    simp [rs_decode_cmd, htab]
  · obtain ⟨hc, hp, hge, hv⟩ := rs_width_code_int_len L
    rw [rs_emit_cmd, if_neg (by omega)]
    have htab := hs_prototab_literal_wide (rs_width_code (rs_int_len L)) hc
    rw [hp] at htab
    show rs_decode_cmd ((0x41 + rs_width_code (rs_int_len L))
      :: (beBytes (rs_int_len L) L ++ tail)) = _
    exact rs_decode_cons_literal_wide _ _ L htab hge (hv hL) tail

/-- Decoding an emitted COPY command recovers it, leaving the tail. -/
theorem rs_decode_emit_copy (off len : Nat) (h1 : off < 2 ^ 64) (h2 : len < 2 ^ 64)
    (tail : List Nat) :
    rs_decode_cmd (rs_emit_cmd (.COPY off len) ++ tail) = .ok (.COPY off len, tail) := by
  obtain ⟨hc1, hp1, _, hv1⟩ := rs_width_code_int_len off
  obtain ⟨hc2, hp2, _, hv2⟩ := rs_width_code_int_len len
  rw [rs_emit_cmd]
  have htab := hs_prototab_copy (rs_width_code (rs_int_len off))
    (rs_width_code (rs_int_len len)) hc1 hc2
  rw [hp1, hp2] at htab
  rw [List.cons_append, List.append_assoc]
  exact rs_decode_cons_copy _ _ _ off len htab (hv1 h1) (hv2 h2) tail

/-- Decoding the single zero byte yields END. -/
theorem rs_decode_end (tail : List Nat) : rs_decode_cmd (0 :: tail) = .ok (.END, tail) := by
  have htab : hs_prototab 0 = ⟨.END, 0, 0, 0, 1⟩ := by
    rw [hs_prototab, if_pos rfl]
  simp only [rs_decode_cmd, htab]

end Librsync

namespace Librsync

open rs_result

theorem beVal_foldl (l : List Nat) (acc : Nat) :
    l.foldl (fun a d => a * 256 + d) acc = acc * 256 ^ l.length + beVal l := by
  induction l generalizing acc with
  | nil => simp [beVal]
  | cons x xs ih =>
    have hx : beVal (x :: xs) = x * 256 ^ xs.length + beVal xs := by
      show (x :: xs).foldl (fun a d => a * 256 + d) 0 = _
      rw [List.foldl_cons, ih (0 * 256 + x)]
      ring
    rw [List.foldl_cons, ih (acc * 256 + x), hx, List.length_cons]
    ring

theorem beVal_cons (x : Nat) (xs : List Nat) :
    beVal (x :: xs) = x * 256 ^ xs.length + beVal xs := by
  show (x :: xs).foldl (fun a d => a * 256 + d) 0 = _
  rw [List.foldl_cons, beVal_foldl]
  ring

/-- The big-endian value of a list of genuine bytes fits in as many
bytes. -/
theorem beVal_lt (l : List Nat) (h : ∀ d ∈ l, d < 256) : beVal l < 256 ^ l.length := by
  induction l with
  | nil => simp [beVal]
  | cons x xs ih =>
    rw [beVal_cons, List.length_cons]
    have hx : x < 256 := h x (by simp)
    have hxs : beVal xs < 256 ^ xs.length := ih (fun d hd => h d (by simp [hd]))
    calc x * 256 ^ xs.length + beVal xs
        < x * 256 ^ xs.length + 256 ^ xs.length := by omega
      _ = (x + 1) * 256 ^ xs.length := by ring
      _ ≤ 256 * 256 ^ xs.length := Nat.mul_le_mul_right _ (by omega)
      _ = 256 ^ (xs.length + 1) := by ring

theorem rs_int_len_le_of_lt (L w : Nat)
    (hw : w = 1 ∨ w = 2 ∨ w = 4 ∨ w = 8) (h : L < 256 ^ w) : rs_int_len L ≤ w := by
  rcases hw with rfl | rfl | rfl | rfl <;>
    · unfold rs_int_len
      split_ifs <;> norm_num at h ⊢ <;> omega

theorem rs_param_width_mem (k : Nat) (h1 : 1 ≤ k) (h2 : k ≤ 4) :
    rs_param_width k = 1 ∨ rs_param_width k = 2 ∨ rs_param_width k = 4 ∨
    rs_param_width k = 8 := by
  interval_cases k <;> simp [rs_param_width]

/-- The emitted form of a command is never longer than any byte sequence
that decodes exactly to that command: minimality of the encoding. -/
theorem rs_emit_cmd_min_length (bytes : List Nat) (cmd : rs_op)
    (hbyte : ∀ d ∈ bytes, d < 256)
    (hdec : rs_decode_cmd bytes = .ok (cmd, [])) :
    (rs_emit_cmd cmd).length ≤ bytes.length := by
  cases bytes with
  | nil => simp [rs_decode_cmd] at hdec
  | cons b rest =>
    by_cases hb0 : b = 0
    · subst hb0
      rw [rs_decode_end] at hdec
      simp only [Except.ok.injEq, Prod.mk.injEq] at hdec
      obtain ⟨h1, rfl⟩ := hdec
      subst h1
      simp [rs_emit_cmd]
    · by_cases hbimm : b ≤ 64
      · have htab : hs_prototab b = ⟨.LITERAL, b, 0, 0, 1⟩ := by
          rw [hs_prototab, if_neg hb0, if_pos hbimm]
        simp only [rs_decode_cmd, htab, if_true, Except.ok.injEq, Prod.mk.injEq] at hdec
        obtain ⟨rfl, rfl⟩ := hdec
        rw [rs_emit_cmd, if_pos ⟨by omega, hbimm⟩]
      · by_cases hblit : b ≤ 68
        · set w := rs_param_width (b - 64) with hwdef
          have hwmem := rs_param_width_mem (b - 64) (by omega) (by omega)
          rw [← hwdef] at hwmem
          have hw1 : 1 ≤ w := by rcases hwmem with h | h | h | h <;> omega
          have htab : hs_prototab b = ⟨.LITERAL, 0, w, 0, 1 + w⟩ := by
            rw [hs_prototab, if_neg hb0, if_neg (by omega), if_pos hblit]
          simp only [rs_decode_cmd, htab] at hdec
          rw [if_neg (by omega)] at hdec
          by_cases hlen : rest.length < w
          · rw [if_pos hlen] at hdec
            simp at hdec
          · rw [if_neg hlen] at hdec
            simp only [Except.ok.injEq, Prod.mk.injEq] at hdec
            obtain ⟨h1, hdrop⟩ := hdec
            subst h1
            have hrl : rest.length = w := by
              have := congrArg List.length hdrop
              simp at this
              omega
            have hLlt : beVal (rest.take w) < 256 ^ w := by
              have hl : (rest.take w).length = w := by
                rw [List.length_take]
                omega
              have hb := beVal_lt (rest.take w)
                (fun d hd => hbyte d (List.mem_cons_of_mem b (List.take_subset _ _ hd)))
              rwa [hl] at hb
            rw [rs_emit_cmd]
            split_ifs with hif
            · simp only [List.length_cons, List.length_nil]
              omega
            · simp only [List.length_cons, beBytes_length]
              have := rs_int_len_le_of_lt _ w hwmem hLlt
              omega
        · by_cases hbcopy : b ≤ 84
          · set w1 := rs_param_width ((b - 69) / 4 + 1) with hw1def
            set w2 := rs_param_width ((b - 69) % 4 + 1) with hw2def
            have hw1mem := rs_param_width_mem ((b - 69) / 4 + 1) (by omega) (by omega)
            have hw2mem := rs_param_width_mem ((b - 69) % 4 + 1) (by omega) (by omega)
            rw [← hw1def] at hw1mem
            rw [← hw2def] at hw2mem
            have htab : hs_prototab b = ⟨.COPY, 0, w1, w2, 1 + w1 + w2⟩ := by
              rw [hs_prototab, if_neg hb0, if_neg (by omega), if_neg (by omega),
                if_pos hbcopy]
            simp only [rs_decode_cmd, htab] at hdec
            by_cases hlen : rest.length < w1 + w2
            · rw [if_pos hlen] at hdec
              simp at hdec
            · rw [if_neg hlen] at hdec
              simp only [Except.ok.injEq, Prod.mk.injEq] at hdec
              obtain ⟨h1, hdrop⟩ := hdec
              subst h1
              have hrl : rest.length = w1 + w2 := by
                have := congrArg List.length hdrop
                simp at this
                omega
              have hofflt : beVal (rest.take w1) < 256 ^ w1 := by
                have hl : (rest.take w1).length = w1 := by
                  rw [List.length_take]
                  omega
                have hb := beVal_lt (rest.take w1)
                  (fun d hd => hbyte d (List.mem_cons_of_mem b (List.take_subset _ _ hd)))
                rwa [hl] at hb
              have hlenlt : beVal ((rest.drop w1).take w2) < 256 ^ w2 := by
                have hl : ((rest.drop w1).take w2).length = w2 := by
                  rw [List.length_take, List.length_drop]
                  omega
                have hb := beVal_lt ((rest.drop w1).take w2)
                  (fun d hd => hbyte d (List.mem_cons_of_mem b
                    (List.drop_subset _ _ (List.take_subset _ _ hd))))
                rwa [hl] at hb
              rw [rs_emit_cmd]
              simp only [List.length_cons, List.length_append, beBytes_length]
              have i1 := rs_int_len_le_of_lt _ w1 hw1mem hofflt
              have i2 := rs_int_len_le_of_lt _ w2 hw2mem hlenlt
              omega
          · have htab : hs_prototab b = ⟨.RESERVED, 0, 0, 0, 1⟩ := by
              rw [hs_prototab, if_neg hb0, if_neg (by omega), if_neg (by omega),
                if_neg (by omega)]
            simp only [rs_decode_cmd, htab] at hdec
            simp at hdec

end Librsync

namespace Librsync

/-- C2.  Opcode protocol round-trip and minimality: for every LITERAL and
COPY command with representable parameters, encoding via the descriptor
table and decoding recovers the original command and leaves the rest of
the stream untouched; END is the single zero byte; literal lengths 1..64
use the one-byte immediate form; and no byte sequence that decodes to a
command is shorter than the emitted encoding of that command. -/
theorem opcode_roundtrip_and_minimality :
    (∀ L tail, 1 ≤ L → L < 2 ^ 64 →
      rs_decode_cmd (rs_emit_cmd (.LITERAL L) ++ tail) = .ok (.LITERAL L, tail)) ∧
    (∀ off len tail, off < 2 ^ 64 → len < 2 ^ 64 →
      rs_decode_cmd (rs_emit_cmd (.COPY off len) ++ tail) = .ok (.COPY off len, tail)) ∧
    rs_emit_cmd .END = [0] ∧
    (∀ tail, rs_decode_cmd (0 :: tail) = .ok (.END, tail)) ∧
    (∀ L, 1 ≤ L → L ≤ 64 → rs_emit_cmd (.LITERAL L) = [L]) ∧
    (∀ bytes cmd, (∀ d ∈ bytes, d < 256) → rs_decode_cmd bytes = .ok (cmd, []) →
      (rs_emit_cmd cmd).length ≤ bytes.length) :=
  ⟨fun L tail h1 h2 => rs_decode_emit_literal L h1 h2 tail,
    fun off len tail h1 h2 => rs_decode_emit_copy off len h1 h2 tail,
    rfl, rs_decode_end,
    fun L h1 h2 => by rw [rs_emit_cmd, if_pos ⟨h1, h2⟩],
    fun bytes cmd h1 h2 => rs_emit_cmd_min_length bytes cmd h1 h2⟩

/-- Witness for the opcode round trip at concrete commands. -/
theorem opcode_roundtrip_witness :
    (1 : Nat) ≤ 5 ∧ (5 : Nat) < 2 ^ 64 ∧ (7 : Nat) < 2 ^ 64 ∧ (70000 : Nat) < 2 ^ 64 ∧
    rs_decode_cmd (rs_emit_cmd (.LITERAL 5) ++ [9]) = .ok (.LITERAL 5, [9]) ∧
    rs_decode_cmd (rs_emit_cmd (.COPY 7 70000) ++ []) = .ok (.COPY 7 70000, []) :=
  ⟨by decide, by norm_num, by norm_num, by norm_num,
    opcode_roundtrip_and_minimality.1 5 [9] (by decide) (by norm_num),
    opcode_roundtrip_and_minimality.2.1 7 70000 [] (by norm_num) (by norm_num)⟩

end Librsync

namespace Librsync

open rs_result

/-! ## Delta producer and patch applier (spec sections 4.8, 4.9)

Modelled from the spec: delta and patch code is not among the sources at
hand.  The delta producer scans the new stream with a window of up to
`block_len` bytes, looks the window's weak sum up in the signature hash
table, confirms candidates by (truncated) strong sum, and emits
COPY/LITERAL commands greedily left to right; unmatched bytes accumulate
in a pending literal.  The patch applier parses the delta stream by the
opcode table and reconstructs the new stream from the old one. -/

/-- A delta-producer command before serialization. -/
inductive rs_delta_cmd where
  | lit (bytes : List Nat)
  | copy (off : Nat) (len : Nat)
  deriving DecidableEq, Repr

/-- Serialize a delta command: a LITERAL header followed by its payload,
or a COPY header (spec section 6). -/
def rs_emit_delta_cmd : rs_delta_cmd → List Nat
  | .lit bs => rs_emit_cmd (.LITERAL bs.length) ++ bs
  | .copy off len => rs_emit_cmd (.COPY off len)

/-- Look the window up in the hash table and walk its bucket in insertion
order until a candidate's (truncated) strong sum matches (spec sections
4.3 and 4.8). -/
def rs_find_match (H : List Nat → List Nat) (isig : rs_indexed_signature)
    (w : List Nat) : Option Nat :=
  (isig.hash_table (rs_weak_sum isig.sig.magic w)).find?
    (fun i => decide (rs_entry_strong isig.sig i
      = rs_strong_sum H isig.sig.strong_sum_len w))

/-- Flush the pending literal accumulator (spec section 4.8): emit one
LITERAL command when it is nonempty. -/
def rs_flush_lit (lit : List Nat) : List rs_delta_cmd :=
  if lit = [] then [] else [.lit lit]

/-- The scan loop of the delta producer (spec section 4.8): on a strong
match emit the pending literal and a `COPY(block_index * block_len,
window_len)` and restart the window after the match; otherwise slide by
one byte, moving the byte that falls out into the pending literal; at end
of stream flush the pending literal.  Fuel-structural; `fuel ≥ length` of
the remaining stream makes the fuel bound unreachable. -/
def rs_delta_scan (H : List Nat → List Nat) (isig : rs_indexed_signature) :
    Nat → List Nat → List Nat → List rs_delta_cmd
  | 0, rest, lit => rs_flush_lit (lit ++ rest)
  | _ + 1, [], lit => rs_flush_lit lit
  | fuel + 1, x :: xs, lit =>
    match rs_find_match H isig ((x :: xs).take isig.sig.block_len) with
    | some i =>
      rs_flush_lit lit ++
        (.copy (i * isig.sig.block_len) ((x :: xs).take isig.sig.block_len).length)
          :: rs_delta_scan H isig fuel
            ((x :: xs).drop ((x :: xs).take isig.sig.block_len).length) []
    | none => rs_delta_scan H isig fuel xs (lit ++ [x])

/-- The serialized delta stream of `new` against an indexed signature
(spec section 6): the delta magic, the serialized commands, and the END
byte. -/
def rs_delta_file (H : List Nat → List Nat) (isig : rs_indexed_signature)
    (new : List Nat) : List Nat :=
  beBytes 4 RS_DELTA_MAGIC ++
    (((rs_delta_scan H isig new.length new []).map rs_emit_delta_cmd).flatten ++ [0])

/-- The patch applier's command loop (spec section 4.9): decode one
command at a time; copy LITERAL payload through; satisfy COPY from the
basis `old`; END completes with `RS_DONE`.  Fuel-structural. -/
def rs_patch_cmds (old : List Nat) : Nat → List Nat → Except rs_result (List Nat)
  | 0, _ => .error RS_INTERNAL_ERROR
  | fuel + 1, s =>
    match rs_decode_cmd s with
    | .error e => .error e
    | .ok (.END, _) => .ok []
    | .ok (.LITERAL L, rest) =>
      if rest.length < L then .error RS_INPUT_ENDED
      else (rs_patch_cmds old fuel (rest.drop L)).map (fun out => rest.take L ++ out)
    | .ok (.COPY off len, rest) =>
      (rs_patch_cmds old fuel rest).map (fun out => (old.drop off).take len ++ out)

/-- Apply a patch: check the delta magic (`RS_BAD_MAGIC` on mismatch,
spec section 4.9), then run the command loop against the basis. -/
def rs_patch_file (old delta : List Nat) : Except rs_result (List Nat) :=
  if delta.length < 4 then .error RS_INPUT_ENDED
  else if beVal (delta.take 4) ≠ RS_DELTA_MAGIC then .error RS_BAD_MAGIC
  else rs_patch_cmds old delta.length (delta.drop 4)

/-- The stream a command list reconstructs: LITERAL bytes verbatim, COPY
slices of the basis. -/
def rs_apply_delta_cmds (old : List Nat) (cs : List rs_delta_cmd) : List Nat :=
  (cs.map (fun c => match c with
    | .lit bs => bs
    | .copy off len => (old.drop off).take len)).flatten

end Librsync

namespace Librsync

open rs_result

theorem rs_apply_delta_cmds_append (old : List Nat) (a b : List rs_delta_cmd) :
    rs_apply_delta_cmds old (a ++ b)
      = rs_apply_delta_cmds old a ++ rs_apply_delta_cmds old b := by
  simp [rs_apply_delta_cmds]

theorem rs_apply_flush (old lit : List Nat) :
    rs_apply_delta_cmds old (rs_flush_lit lit) = lit := by
  unfold rs_flush_lit
  split_ifs with h
  · simp [rs_apply_delta_cmds, h]
  · simp [rs_apply_delta_cmds]

/-- Splitting a list after its own `take`: the window plus what remains
after the window is the whole stream. -/
theorem take_window_append_drop (l : List Nat) (n : Nat) :
    l.take n ++ l.drop (l.take n).length = l := by
  rcases le_or_lt n l.length with h | h
  · rw [List.length_take, min_eq_left h, List.take_append_drop]
  · rw [List.take_of_length_le (by omega), List.drop_length, List.append_nil]

/-- Any window matched by `rs_find_match` against the table built from
the signature of `old` is literally present in `old` at the matched
block's offset (the strong sum is collision-free by hypothesis). -/
theorem rs_find_match_sound (H : List Nat → List Nat) (magic bl sl : Nat)
    (old : List Nat) (hbl : 1 ≤ bl)
    (hinj : ∀ a b : List Nat, rs_strong_sum H sl a = rs_strong_sum H sl b → a = b)
    (w : List Nat) (i : Nat)
    (hfind : rs_find_match H (rs_build_hash_table (rs_signature_of H magic bl sl old)) w
      = some i) :
    (old.drop (i * bl)).take w.length = w := by
  set s := rs_signature_of H magic bl sl old with hs
  have hmem : i ∈ (rs_build_hash_table s).hash_table
      (rs_weak_sum ((rs_build_hash_table s).sig.magic) w) :=
    List.mem_of_find?_eq_some hfind
  have hpred := List.find?_some hfind
  rw [rs_hash_table_mem] at hmem
  have hi : i < s.entries.length := hmem.1
  have hstrong : rs_entry_strong s i
      = rs_strong_sum H ((rs_build_hash_table s).sig.strong_sum_len) w := by
    exact of_decide_eq_true hpred
  have hentry := rs_signature_of_entry H magic bl sl old hbl i (by rw [← hs] at *; exact hi)
  have hstrongval : rs_entry_strong s i
      = rs_strong_sum H sl ((old.drop (i * bl)).take bl) := by
    rw [rs_entry_strong, hs, hentry]
  have hsl' : (rs_build_hash_table s).sig.strong_sum_len = sl := by
    rw [hs]
    rfl
  rw [hstrongval, hsl'] at hstrong
  have hblk : (old.drop (i * bl)).take bl = w := hinj _ _ hstrong
  have hwlen : w.length ≤ bl := by
    rw [← hblk, List.length_take]
    omega
  calc (old.drop (i * bl)).take w.length
      = ((old.drop (i * bl)).take bl).take w.length := by
        rw [List.take_take, min_eq_left hwlen]
    _ = w.take w.length := by rw [hblk]
    _ = w := List.take_length w

theorem rs_apply_delta_cmds_cons_copy (old : List Nat) (off len : Nat)
    (cs : List rs_delta_cmd) :
    rs_apply_delta_cmds old (.copy off len :: cs)
      = (old.drop off).take len ++ rs_apply_delta_cmds old cs := by
  simp [rs_apply_delta_cmds]

theorem rs_apply_delta_cmds_cons_lit (old : List Nat) (bs : List Nat)
    (cs : List rs_delta_cmd) :
    rs_apply_delta_cmds old (.lit bs :: cs)
      = bs ++ rs_apply_delta_cmds old cs := by
  simp [rs_apply_delta_cmds]

/-- The delta scan covers the new stream exactly: applying the emitted
commands against the basis reconstructs the pending literal followed by
the remaining stream — for any fuel, and in particular the whole new
stream. -/
theorem rs_delta_scan_apply (H : List Nat → List Nat) (isig : rs_indexed_signature)
    (old : List Nat)
    (hsound : ∀ w i, rs_find_match H isig w = some i →
      (old.drop (i * isig.sig.block_len)).take w.length = w) :
    ∀ (fuel : Nat) (rest lit : List Nat),
      rs_apply_delta_cmds old (rs_delta_scan H isig fuel rest lit) = lit ++ rest := by
  intro fuel
  induction fuel with
  | zero =>
    intro rest lit
    rw [rs_delta_scan, rs_apply_flush]
  | succ fuel ih =>
    intro rest lit
    cases rest with
    | nil => rw [rs_delta_scan, rs_apply_flush, List.append_nil]
    | cons x xs =>
      rw [rs_delta_scan]
      cases hfind : rs_find_match H isig ((x :: xs).take isig.sig.block_len) with
      | none =>
        simp only [hfind]
        rw [ih xs (lit ++ [x]), List.append_assoc]
        rfl
      | some i =>
        simp only [hfind]
        rw [rs_apply_delta_cmds_append, rs_apply_flush, rs_apply_delta_cmds_cons_copy,
          ih _ [], hsound _ i hfind, List.nil_append, take_window_append_drop]

theorem rs_mem_flush_lit (lit : List Nat) (c : rs_delta_cmd)
    (hc : c ∈ rs_flush_lit lit) : c = .lit lit ∧ lit ≠ [] := by
  unfold rs_flush_lit at hc
  split_ifs at hc with h
  · simp at hc
  · simp at hc
    exact ⟨hc, h⟩

/-- Every command the scan emits has representable parameters: literals
are nonempty and no longer than the bytes scanned; copies address a block
of the signature. -/
theorem rs_delta_scan_valid (H : List Nat → List Nat) (s : rs_signature)
    (hN : s.entries.length * s.block_len < 2 ^ 64) :
    ∀ (fuel : Nat) (rest lit : List Nat), lit.length + rest.length < 2 ^ 64 →
      ∀ c ∈ rs_delta_scan H (rs_build_hash_table s) fuel rest lit,
        (match c with
          | rs_delta_cmd.lit bs => 1 ≤ bs.length ∧ bs.length < 2 ^ 64
          | rs_delta_cmd.copy off len => off < 2 ^ 64 ∧ len < 2 ^ 64) := by
  intro fuel
  induction fuel with
  | zero =>
    intro rest lit hb c hc
    obtain ⟨rfl, hne⟩ := rs_mem_flush_lit _ _ (by rwa [rs_delta_scan] at hc)
    have : 1 ≤ (lit ++ rest).length := by
      cases h : lit ++ rest with
      | nil => exact absurd h hne
      | cons a l => simp [h]
    simp only [List.length_append] at this ⊢
    omega
  | succ fuel ih =>
    intro rest lit hb c hc
    cases rest with
    | nil =>
      obtain ⟨rfl, hne⟩ := rs_mem_flush_lit _ _ (by rwa [rs_delta_scan] at hc)
      have : 1 ≤ lit.length := by
        cases h : lit with
        | nil => exact absurd h hne
        | cons a l => simp [h]
      simp only [List.length_nil] at hb
      omega
    | cons x xs =>
      rw [rs_delta_scan] at hc
      cases hfind : rs_find_match H (rs_build_hash_table s)
          ((x :: xs).take (rs_build_hash_table s).sig.block_len) with
      | none =>
        rw [hfind] at hc
        exact ih xs (lit ++ [x])
          (by simp only [List.length_append, List.length_cons, List.length_nil] at hb ⊢; omega)
          c hc
      | some i =>
        rw [hfind] at hc
        have hiN : i < s.entries.length := by
          have hmem := List.mem_of_find?_eq_some hfind
          rw [rs_hash_table_mem] at hmem
          exact hmem.1
        rcases List.mem_append.mp hc with hflush | hrest
        · obtain ⟨rfl, hne⟩ := rs_mem_flush_lit _ _ hflush
          have : 1 ≤ lit.length := by
            cases h : lit with
            | nil => exact absurd h hne
            | cons a l => simp [h]
          simp only [List.length_cons] at hb
          omega
        · rcases List.mem_cons.mp hrest with rfl | hrec
          · have hb' : (rs_build_hash_table s).sig.block_len = s.block_len := rfl
            rw [hb']
            have hoff : i * s.block_len ≤ s.entries.length * s.block_len :=
              Nat.mul_le_mul_right _ (by omega)
            have hlen : ((x :: xs).take s.block_len).length
                ≤ s.entries.length * s.block_len := by
              rw [List.length_take]
              have h1 : 1 ≤ s.entries.length := by omega
              have h2 : s.block_len ≤ s.entries.length * s.block_len := by
                calc s.block_len = 1 * s.block_len := by ring
                  _ ≤ s.entries.length * s.block_len := Nat.mul_le_mul_right _ h1
              omega
            exact ⟨by omega, by omega⟩
          · exact ih _ []
              (by simp only [List.length_nil, List.length_drop, List.length_cons,
                List.length_take] at hb ⊢; omega)
              c hrec

theorem rs_emit_cmd_length_pos (c : rs_op) : 1 ≤ (rs_emit_cmd c).length := by
  cases c with
  | END => simp [rs_emit_cmd]
  | LITERAL L =>
    rw [rs_emit_cmd]
    split_ifs <;> simp
  | COPY off len => simp [rs_emit_cmd]

/-- Parsing and applying a serialized command list (followed by the END
byte) against the basis reproduces exactly the stream the commands
describe. -/
theorem rs_patch_cmds_serialized (old : List Nat) :
    ∀ (cs : List rs_delta_cmd),
      (∀ c ∈ cs, (match c with
        | rs_delta_cmd.lit bs => 1 ≤ bs.length ∧ bs.length < 2 ^ 64
        | rs_delta_cmd.copy off len => off < 2 ^ 64 ∧ len < 2 ^ 64)) →
      ∀ fuel, ((cs.map rs_emit_delta_cmd).flatten ++ [0]).length ≤ fuel →
      rs_patch_cmds old fuel ((cs.map rs_emit_delta_cmd).flatten ++ [0])
        = .ok (rs_apply_delta_cmds old cs) := by
  intro cs
  induction cs with
  | nil =>
    intro _ fuel hf
    simp only [List.map_nil, List.flatten_nil, List.nil_append] at hf ⊢
    cases fuel with
    | zero => simp at hf
    | succ fuel =>
      rw [rs_patch_cmds]
      simp only [rs_decode_end]
      simp [rs_apply_delta_cmds]
  | cons c cs ih =>
    intro hv fuel hf
    have hkey : (((c :: cs).map rs_emit_delta_cmd).flatten ++ [0])
        = rs_emit_delta_cmd c ++ ((cs.map rs_emit_delta_cmd).flatten ++ [0]) := by
      simp
    rw [hkey] at hf ⊢
    have hvc := hv c (by simp)
    have hvs : ∀ c' ∈ cs, (match c' with
        | rs_delta_cmd.lit bs => 1 ≤ bs.length ∧ bs.length < 2 ^ 64
        | rs_delta_cmd.copy off len => off < 2 ^ 64 ∧ len < 2 ^ 64) :=
      fun c' hc' => hv c' (by simp [hc'])
    cases fuel with
    | zero =>
      exfalso
      simp only [List.length_append, List.length_cons, List.length_nil] at hf
      omega
    | succ fuel =>
      rw [rs_patch_cmds]
      cases c with
      | lit bs =>
        simp only at hvc
        have hdec := rs_decode_emit_literal bs.length hvc.1 hvc.2
          (bs ++ ((cs.map rs_emit_delta_cmd).flatten ++ [0]))
        rw [rs_emit_delta_cmd, List.append_assoc]
        simp only [hdec]
        rw [if_neg (by simp only [List.length_append]; omega)]
        rw [List.take_left, List.drop_left]
        rw [ih hvs fuel (by
          have hlen : (rs_emit_delta_cmd (.lit bs)).length
              = (rs_emit_cmd (.LITERAL bs.length)).length + bs.length := by
            simp [rs_emit_delta_cmd]
          simp only [List.length_append, List.length_cons, List.length_nil] at hf ⊢
          have hpos := rs_emit_cmd_length_pos (.LITERAL bs.length)
          omega)]
        rw [rs_apply_delta_cmds_cons_lit]
        rfl
      | copy off len =>
        simp only at hvc
        have hdec := rs_decode_emit_copy off len hvc.1 hvc.2
          ((cs.map rs_emit_delta_cmd).flatten ++ [0])
        rw [rs_emit_delta_cmd]
        simp only [hdec]
        rw [ih hvs fuel (by
          have hlen : (rs_emit_delta_cmd (.copy off len)).length
              = (rs_emit_cmd (.COPY off len)).length := rfl
          simp only [List.length_append, List.length_cons, List.length_nil] at hf ⊢
          have hpos := rs_emit_cmd_length_pos (.COPY off len)
          omega)]
        rw [rs_apply_delta_cmds_cons_copy]
        rfl

end Librsync

namespace Librsync

open rs_result

/-- C1.  Round-trip law: for any old and new byte streams and any valid
`(magic, block_len, strong_len)` (with realistically bounded stream
lengths and a collision-free truncated strong hash), generating the
signature of `old`, loading it, building its hash index, producing the
delta of `new` against that table, and patching `old` with that delta
recovers exactly `new`.  This quantifies over all `old`/`new`, covering
the identical, disjoint, shared-prefix, shared-suffix, interior-run and
empty cases alike. -/
theorem roundtrip_sig_delta_patch (H : List Nat → List Nat) (magic bl sl : Nat)
    (old new : List Nat)
    (hm : rs_is_sig_magic magic = true) (hbl1 : 1 ≤ bl) (hbl2 : bl ≤ 2 ^ 16)
    (hsl1 : 1 ≤ sl) (hsl2 : sl ≤ rs_max_strong_len magic)
    (hold : old.length ≤ 2 ^ 63) (hnew : new.length < 2 ^ 63)
    (hinj : ∀ a b : List Nat, rs_strong_sum H sl a = rs_strong_sum H sl b → a = b) :
    ∃ sig, rs_loadsig (rs_sig_file H magic bl sl old) = .ok sig ∧
      rs_patch_file old
        (rs_delta_file H (rs_build_hash_table sig) new) = .ok new := by
  refine ⟨rs_signature_of H magic bl sl old,
    rs_loadsig_rs_sig_file H magic bl sl old hm hbl1 hbl2 hsl1 hsl2, ?_⟩
  set s := rs_signature_of H magic bl sl old with hs
  set isig := rs_build_hash_table s with hisig
  set cs := rs_delta_scan H isig new.length new [] with hcs
  set body := ((cs.map rs_emit_delta_cmd).flatten ++ [0]) with hbody
  have hfile : rs_delta_file H isig new = beBytes 4 RS_DELTA_MAGIC ++ body := rfl
  have hlen4 : (rs_delta_file H isig new).length = 4 + body.length := by
    rw [hfile]
    simp only [List.length_append, beBytes_length]
  have hbodylen : 1 ≤ body.length := by
    rw [hbody]
    simp
  rw [rs_patch_file]
  rw [if_neg (by omega)]
  have htake4 : (rs_delta_file H isig new).take 4 = beBytes 4 RS_DELTA_MAGIC := by
    rw [hfile, List.take_left' (beBytes_length 4 RS_DELTA_MAGIC)]
  have hdrop4 : (rs_delta_file H isig new).drop 4 = body := by
    rw [hfile, List.drop_left' (beBytes_length 4 RS_DELTA_MAGIC)]
  rw [htake4, beVal_beBytes 4 RS_DELTA_MAGIC (by norm_num [RS_DELTA_MAGIC])]
  rw [if_neg (by simp)]
  rw [hdrop4]
  -- entry count bound feeding command validity
  have hcount : s.entries.length = (old.length + bl - 1) / bl := by
    rw [hs]
    simp only [rs_signature_of, List.length_map]
    exact rs_blocks_length bl hbl1 old
  have hsbl : s.block_len = bl := rfl
  have hN : s.entries.length * s.block_len < 2 ^ 64 := by
    rw [hcount, hsbl]
    have hd := Nat.div_mul_le_self (old.length + bl - 1) bl
    have : old.length + bl - 1 < 2 ^ 64 := by
      norm_num at hold hbl2 ⊢
      omega
    omega
  have hv := rs_delta_scan_valid H s hN new.length new []
    (by simp only [List.length_nil]; omega)
  rw [rs_patch_cmds_serialized old cs (by rw [hcs, hisig]; exact hv) _
    (by rw [← hbody]; omega)]
  have hsound : ∀ w i, rs_find_match H isig w = some i →
      (old.drop (i * isig.sig.block_len)).take w.length = w := by
    intro w i hfind
    have hb' : isig.sig.block_len = bl := rfl
    rw [hb']
    exact rs_find_match_sound H magic bl sl old hbl1 hinj w i hfind
  rw [hcs, rs_delta_scan_apply H isig old hsound new.length new [], List.nil_append]

/-- The truncated strong sum built from the encoding hash is injective:
its first element is the injective encoding of the hashed bytes. -/
theorem rs_strong_sum_encode_injective (a b : List Nat)
    (h : rs_strong_sum (fun l => [Encodable.encode l]) 12 a
       = rs_strong_sum (fun l => [Encodable.encode l]) 12 b) : a = b := by
  have h0 := congrArg (fun l => l[0]?) h
  simp only [rs_strong_sum, List.singleton_append] at h0
  simpa using h0

/-- Witness for the round-trip law at a concrete old/new pair sharing a
suffix, with `block_len = 4`, `strong_len = 12`, the recommended magic
and an explicitly injective strong hash. -/
theorem roundtrip_witness :
    rs_is_sig_magic RS_RK_BLAKE2_SIG_MAGIC = true ∧
    (1 : Nat) ≤ 4 ∧ (4 : Nat) ≤ 2 ^ 16 ∧ (1 : Nat) ≤ 12 ∧
    (12 : Nat) ≤ rs_max_strong_len RS_RK_BLAKE2_SIG_MAGIC ∧
    ([97, 98, 99, 100, 101, 102, 103, 104] : List Nat).length ≤ 2 ^ 63 ∧
    ([88, 89, 99, 100, 101, 102, 103, 104] : List Nat).length < 2 ^ 63 ∧
    (∃ sig, rs_loadsig (rs_sig_file (fun l => [Encodable.encode l])
        RS_RK_BLAKE2_SIG_MAGIC 4 12 [97, 98, 99, 100, 101, 102, 103, 104]) = .ok sig ∧
      rs_patch_file [97, 98, 99, 100, 101, 102, 103, 104]
        (rs_delta_file (fun l => [Encodable.encode l]) (rs_build_hash_table sig)
          [88, 89, 99, 100, 101, 102, 103, 104])
        = .ok [88, 89, 99, 100, 101, 102, 103, 104]) := by
  refine ⟨by decide, by norm_num, by norm_num, by norm_num, by decide, by decide,
    by decide, ?_⟩
  exact roundtrip_sig_delta_patch (fun l => [Encodable.encode l])
    RS_RK_BLAKE2_SIG_MAGIC 4 12 [97, 98, 99, 100, 101, 102, 103, 104]
    [88, 89, 99, 100, 101, 102, 103, 104]
    (by decide) (by norm_num) (by norm_num) (by norm_num) (by decide)
    (by decide) (by decide) rs_strong_sum_encode_injective

end Librsync

namespace Librsync

open rs_result

/-- C4.  The recognized 4-byte magics are exactly the closed five-element
set from `rs_magic_number` in `librsync.h`; each signature magic
determines the weak-sum and strong-hash variants (and the weak sum the
job computes dispatches on exactly that); and every generated stream
begins with its 4-byte big-endian magic, a recognized value. -/
theorem magic_numbers_closed_set :
    (∀ m : Nat, rs_recognized_magic m = true ↔
      m = 0x72730236 ∨ m = 0x72730136 ∨ m = 0x72730137 ∨ m = 0x72730146 ∨
      m = 0x72730147) ∧
    (rs_magic_weak_kind RS_MD4_SIG_MAGIC = .classic ∧
      rs_magic_strong_kind RS_MD4_SIG_MAGIC = .md4) ∧
    (rs_magic_weak_kind RS_BLAKE2_SIG_MAGIC = .classic ∧
      rs_magic_strong_kind RS_BLAKE2_SIG_MAGIC = .blake2b) ∧
    (rs_magic_weak_kind RS_RK_MD4_SIG_MAGIC = .rabinkarp ∧
      rs_magic_strong_kind RS_RK_MD4_SIG_MAGIC = .md4) ∧
    (rs_magic_weak_kind RS_RK_BLAKE2_SIG_MAGIC = .rabinkarp ∧
      rs_magic_strong_kind RS_RK_BLAKE2_SIG_MAGIC = .blake2b) ∧
    (∀ l, rs_weak_sum RS_MD4_SIG_MAGIC l = rs_weak_classic l ∧
      rs_weak_sum RS_BLAKE2_SIG_MAGIC l = rs_weak_classic l ∧
      rs_weak_sum RS_RK_MD4_SIG_MAGIC l = rs_weak_rabinkarp l ∧
      rs_weak_sum RS_RK_BLAKE2_SIG_MAGIC l = rs_weak_rabinkarp l) ∧
    (∀ (H : List Nat → List Nat) magic bl sl old, rs_is_sig_magic magic = true →
      (rs_sig_file H magic bl sl old).take 4 = beBytes 4 magic ∧
      rs_recognized_magic (beVal ((rs_sig_file H magic bl sl old).take 4)) = true) ∧
    (∀ (H : List Nat → List Nat) isig new,
      (rs_delta_file H isig new).take 4 = beBytes 4 RS_DELTA_MAGIC ∧
      rs_recognized_magic (beVal ((rs_delta_file H isig new).take 4)) = true) := by
  refine ⟨?_, ⟨rfl, rfl⟩, ⟨rfl, rfl⟩, ⟨rfl, rfl⟩, ⟨rfl, rfl⟩,
    fun l => ⟨rfl, rfl, rfl, rfl⟩, ?_, ?_⟩
  · intro m
    simp only [rs_recognized_magic, rs_is_sig_magic, RS_MD4_SIG_MAGIC, RS_BLAKE2_SIG_MAGIC,
      RS_RK_MD4_SIG_MAGIC, RS_RK_BLAKE2_SIG_MAGIC, RS_DELTA_MAGIC, Bool.or_eq_true,
      decide_eq_true_eq]
    tauto
  · intro H magic bl sl old hm
    have htake : (rs_sig_file H magic bl sl old).take 4 = beBytes 4 magic := by
      rw [rs_sig_file]
      simp only [List.append_assoc]
      rw [List.take_left' (beBytes_length 4 magic)]
    refine ⟨htake, ?_⟩
    rw [htake, beVal_beBytes 4 magic (by simpa using rs_is_sig_magic_lt magic hm)]
    simp [rs_recognized_magic, hm]
  · intro H isig new
    have htake : (rs_delta_file H isig new).take 4 = beBytes 4 RS_DELTA_MAGIC := by
      rw [rs_delta_file, List.take_left' (beBytes_length 4 RS_DELTA_MAGIC)]
    refine ⟨htake, ?_⟩
    rw [htake, beVal_beBytes 4 RS_DELTA_MAGIC (by norm_num [RS_DELTA_MAGIC])]
    decide

/-- Witness for the stream-prefix part of the magic-number theorem at a
concrete signature stream. -/
theorem magic_numbers_witness :
    rs_is_sig_magic RS_BLAKE2_SIG_MAGIC = true ∧
    ((rs_sig_file (fun _ => []) RS_BLAKE2_SIG_MAGIC 2 8 [1, 2, 3]).take 4
        = beBytes 4 RS_BLAKE2_SIG_MAGIC ∧
      rs_recognized_magic
        (beVal ((rs_sig_file (fun _ => []) RS_BLAKE2_SIG_MAGIC 2 8 [1, 2, 3]).take 4))
        = true) :=
  ⟨by decide,
    magic_numbers_closed_set.2.2.2.2.2.2.1 (fun _ => []) RS_BLAKE2_SIG_MAGIC 2 8 [1, 2, 3]
      (by decide)⟩

end Librsync

namespace Librsync

open rs_result

/-! ## Job runtime (spec section 4.5)

Modelled from the spec: `rs_job_iter` and the tube are not among the
sources at hand.  A job's operation is a pull-driven state machine: each
statefun requests a number of input bytes; the runtime delivers exactly
that many — accumulated through the tube when the caller's buffers are
smaller — or whatever remains at end of input; the statefun emits output
bytes and either advances to another statefun or finishes with a result.
The runtime never hands a statefun a partial record while input remains. -/

/-- A statefun-based streaming operation: the abstract shape shared by
the signature, load-signature, delta and patch jobs. -/
structure SFMachine where
  St : Type
  need : St → Nat
  step : St → List Nat → List Nat × (St ⊕ rs_result)

/-- Reference run with one giant buffer: every statefun reads its
requested bytes directly from the remaining input. -/
def runBatch (m : SFMachine) : Nat → m.St → List Nat → List Nat × Option rs_result
  | 0, _, _ => ([], none)
  | fuel + 1, s, input =>
    if m.need s ≤ input.length then
      match m.step s (input.take (m.need s)) with
      | (out, .inl s') =>
        let r := runBatch m fuel s' (input.drop (m.need s))
        (out ++ r.1, r.2)
      | (out, .inr res) => (out, some res)
    else
      match m.step s input with
      | (out, .inl s') =>
        let r := runBatch m fuel s' []
        (out ++ r.1, r.2)
      | (out, .inr res) => (out, some res)

/-- The tube's accumulation loop (spec section 4.5): move input into the
tube in buffer chunks of at most `k` bytes until the tube holds the `n`
requested bytes or input runs out. -/
def rs_tube_fill (k : Nat) : Nat → List Nat → List Nat → Nat → List Nat × List Nat
  | 0, tube, input, _ => (tube, input)
  | fuel + 1, tube, input, n =>
    if n ≤ tube.length ∨ input = [] then (tube, input)
    else rs_tube_fill k fuel (tube ++ input.take (min k (n - tube.length)))
      (input.drop (min k (n - tube.length))) n

/-- Buffer-chunked run: the caller presents input through buffers of at
most `k` bytes; the runtime accumulates into the tube until the statefun's
request is met (or input ends), then invokes it; output is collected in
order across calls. -/
def runChunked (m : SFMachine) (k : Nat) : Nat → m.St → List Nat → List Nat →
    List Nat × Option rs_result
  | 0, _, _, _ => ([], none)
  | fuel + 1, s, tube, input =>
    let fi := rs_tube_fill k input.length tube input (m.need s)
    if m.need s ≤ fi.1.length then
      match m.step s (fi.1.take (m.need s)) with
      | (out, .inl s') =>
        let r := runChunked m k fuel s' (fi.1.drop (m.need s)) fi.2
        (out ++ r.1, r.2)
      | (out, .inr res) => (out, some res)
    else
      match m.step s fi.1 with
      | (out, .inl s') =>
        let r := runChunked m k fuel s' [] fi.2
        (out ++ r.1, r.2)
      | (out, .inr res) => (out, some res)

/-- Closed form of the accumulation loop: with a positive buffer size it
moves exactly the missing bytes (or all remaining input) into the tube. -/
theorem rs_tube_fill_eq (k : Nat) (hk : 1 ≤ k) :
    ∀ (fuel : Nat) (tube input : List Nat) (n : Nat), input.length ≤ fuel →
      rs_tube_fill k fuel tube input n
        = (tube ++ input.take (n - tube.length), input.drop (n - tube.length)) := by
  intro fuel
  induction fuel with
  | zero =>
    intro tube input n hl
    have hnil : input = [] := List.length_eq_zero.mp (by omega)
    subst hnil
    simp [rs_tube_fill]
  | succ fuel ih =>
    intro tube input n hl
    rw [rs_tube_fill]
    split_ifs with hc
    · rcases hc with hn | hnil
      · rw [Nat.sub_eq_zero_of_le hn]
        simp
      · subst hnil
        simp
    · push_neg at hc
      obtain ⟨hn, hnil⟩ := hc
      have hpos : 1 ≤ input.length := by
        cases h : input with
        | nil => exact absurd h hnil
        | cons a l => simp [h]
      set t := min k (n - tube.length) with ht
      have ht1 : 1 ≤ t := by
        rw [ht]
        omega
      have htn : t ≤ n - tube.length := by
        rw [ht]
        omega
      rw [ih (tube ++ input.take t) (input.drop t) n
        (by simp only [List.length_drop]; omega)]
      rcases le_or_lt input.length t with hit | hit
      · have htake : input.take t = input := List.take_of_length_le hit
        have hdrop : input.drop t = [] := List.drop_eq_nil_of_le hit
        rw [htake, hdrop]
        have htake2 : input.take (n - tube.length) = input :=
          List.take_of_length_le (by omega)
        have hdrop2 : input.drop (n - tube.length) = [] :=
          List.drop_eq_nil_of_le (by omega)
        rw [htake2, hdrop2]
        simp
      · have hlentt : (input.take t).length = t := by
          rw [List.length_take]
          omega
        have harith : n - (tube ++ input.take t).length = n - tube.length - t := by
          simp only [List.length_append, hlentt]
          omega
        rw [harith, Prod.mk.injEq]
        refine ⟨?_, ?_⟩
        · rw [List.append_assoc, ← List.take_add]
          congr 2
          omega
        · rw [List.drop_drop]
          congr 1
          omega

end Librsync

namespace Librsync

/-- Chunk-equivalence: driving a statefun machine through buffers of any
positive size `k` produces exactly the giant-buffer (batch) run — same
output bytes and same final result. -/
theorem runChunked_eq_runBatch (m : SFMachine) (k : Nat) (hk : 1 ≤ k) :
    ∀ (fuel : Nat) (s : m.St) (input : List Nat),
      runChunked m k fuel s [] input = runBatch m fuel s input := by
  intro fuel
  induction fuel with
  | zero =>
    intro s input
    rfl
  | succ fuel ih =>
    intro s input
    have hfill := rs_tube_fill_eq k hk input.length [] input (m.need s) (le_refl _)
    simp only [List.length_nil, Nat.sub_zero, List.nil_append] at hfill
    have h1 : (rs_tube_fill k input.length [] input (m.need s)).1
        = input.take (m.need s) := by rw [hfill]
    have h2 : (rs_tube_fill k input.length [] input (m.need s)).2
        = input.drop (m.need s) := by rw [hfill]
    rw [runChunked, runBatch, h1, h2]
    by_cases hni : m.need s ≤ input.length
    · have hlen : (input.take (m.need s)).length = m.need s := by
        rw [List.length_take]
        omega
      rw [if_pos (by omega), if_pos hni]
      have htt : (input.take (m.need s)).take (m.need s) = input.take (m.need s) := by
        rw [List.take_take, min_self]
      have hdd : (input.take (m.need s)).drop (m.need s) = [] :=
        List.drop_eq_nil_of_le (by omega)
      rw [htt, hdd]
      cases hstep : m.step s (input.take (m.need s)) with
      | mk out next =>
        cases next with
        | inl s' => simp only [ih]
        | inr res => rfl
    · have htake : input.take (m.need s) = input := List.take_of_length_le (by omega)
      have hdrop : input.drop (m.need s) = [] := List.drop_eq_nil_of_le (by omega)
      rw [htake, hdrop]
      rw [if_neg (by omega), if_neg hni]
      cases hstep : m.step s input with
      | mk out next =>
        cases next with
        | inl s' => simp only [ih]
        | inr res => rfl

end Librsync

namespace Librsync

open rs_result

/-- C3.  Streaming equivalence: driving a job with 1-byte buffers yields
an output stream and final result bit-identical to driving it with one
buffer large enough for everything — for every statefun machine (hence
every job kind) and every input, at every fuel. -/
theorem streaming_equivalence (m : SFMachine) (fuel : Nat) (s : m.St)
    (input : List Nat) (K : Nat) (hK : 1 ≤ K) :
    runChunked m 1 fuel s [] input = runBatch m fuel s input ∧
    runChunked m 1 fuel s [] input = runChunked m K fuel s [] input := by
  refine ⟨runChunked_eq_runBatch m 1 (by norm_num) fuel s input, ?_⟩
  rw [runChunked_eq_runBatch m 1 (by norm_num) fuel s input,
    runChunked_eq_runBatch m K hK fuel s input]

/-- A two-byte echo machine, used to witness the streaming equivalence at
a concrete machine and input. -/
def echoMachine : SFMachine :=
  ⟨Unit, fun _ => 2, fun _ bytes => (bytes, .inr RS_DONE)⟩

/-- Witness for streaming equivalence at a concrete machine and input. -/
theorem streaming_equivalence_witness :
    (1 : Nat) ≤ 5 ∧
    (runChunked echoMachine 1 3 () [] [10, 20, 30]
        = runBatch echoMachine 3 () [10, 20, 30] ∧
      runChunked echoMachine 1 3 () [] [10, 20, 30]
        = runChunked echoMachine 5 3 () [] [10, 20, 30]) :=
  ⟨by norm_num, streaming_equivalence echoMachine 3 () [10, 20, 30] 5 (by norm_num)⟩

end Librsync

namespace Librsync

open rs_result

/-- The externally visible job state: still running a statefun (with the
tube contents), or finished with a recorded final result.  Modelled from
the spec, section 7: a job that has produced a terminal result keeps it. -/
inductive JobState (St : Type) where
  | running (s : St) (tube : List Nat)
  | finished (r : rs_result)

/-- A terminal error: any result other than `RS_DONE`, `RS_BLOCKED` and
the internal `RS_RUNNING` (`rs_result` in `librsync.h`). -/
def rs_is_terminal_error (r : rs_result) : Bool :=
  !(r = RS_DONE || r = RS_BLOCKED || r = RS_RUNNING)

/-- One `rs_job_iter` call.  Modelled from the spec, sections 4.5 and 7:
a finished job returns its recorded result and no output; a running job
accumulates input, runs the statefun when its request is met (recording
a final result if the statefun finishes), and otherwise blocks. -/
def rs_job_iter_model (m : SFMachine) (j : JobState m.St) (input : List Nat) :
    JobState m.St × List Nat × rs_result :=
  match j with
  | .finished r => (.finished r, [], r)
  | .running s tube =>
    let avail := tube ++ input
    if m.need s ≤ avail.length then
      match m.step s (avail.take (m.need s)) with
      | (out, .inl s') => (.running s' (avail.drop (m.need s)), out, RS_BLOCKED)
      | (out, .inr res) => (.finished res, out, res)
    else (.running s avail, [], RS_BLOCKED)

/-- Drive a job over a sequence of input buffers, recording each call's
output and result. -/
def rs_job_run (m : SFMachine) (j : JobState m.St) :
    List (List Nat) → List (List Nat × rs_result)
  | [] => []
  | input :: rest =>
    let r := rs_job_iter_model m j input
    (r.2.1, r.2.2) :: rs_job_run m r.1 rest

/-- An iter call that returns anything but `RS_BLOCKED` leaves the job
finished with that very result. -/
theorem rs_job_iter_model_terminal (m : SFMachine) (j : JobState m.St)
    (input : List Nat) (hne : (rs_job_iter_model m j input).2.2 ≠ RS_BLOCKED) :
    (rs_job_iter_model m j input).1
      = .finished ((rs_job_iter_model m j input).2.2) := by
  cases j with
  | finished r => rfl
  | running s tube =>
    rw [rs_job_iter_model] at hne ⊢
    split_ifs at hne ⊢ with h
    · cases hstep : m.step s ((tube ++ input).take (m.need s)) with
      | mk out next =>
        cases next with
        | inl s' =>
          rw [hstep] at hne
          simp at hne
        | inr res => rfl
    · simp at hne

/-- A finished job answers every subsequent call with its recorded
result and produces no further output. -/
theorem rs_job_run_finished (m : SFMachine) (e : rs_result) :
    ∀ (inputs : List (List Nat)) (b : Nat) (p : List Nat × rs_result),
      (rs_job_run m (.finished e) inputs)[b]? = some p → p = ([], e) := by
  intro inputs
  induction inputs with
  | nil => intro b p hp; simp [rs_job_run] at hp
  | cons input rest ih =>
    intro b p hp
    rw [rs_job_run] at hp
    cases b with
    | zero =>
      simp only [List.getElem?_cons_zero, Option.some.injEq] at hp
      exact hp.symm
    | succ b =>
      rw [List.getElem?_cons_succ] at hp
      exact ih b p hp

/-- C8.  Terminal errors are sticky: in any run of a job over any input
sequence, once some call returns a terminal error, every later call
returns that same error and produces no output. -/
theorem terminal_errors_sticky (m : SFMachine) (j : JobState m.St)
    (inputs : List (List Nat)) (a b : Nat) (hab : a < b) (e : rs_result)
    (he : rs_is_terminal_error e = true)
    (out : List Nat) (ha : (rs_job_run m j inputs)[a]? = some (out, e)) :
    ∀ p, (rs_job_run m j inputs)[b]? = some p → p = ([], e) := by
  induction inputs generalizing j a b with
  | nil => simp [rs_job_run] at ha
  | cons input rest ih =>
    intro p hp
    rw [rs_job_run] at ha hp
    cases a with
    | zero =>
      simp only [List.getElem?_cons_zero, Option.some.injEq] at ha
      have hres : (rs_job_iter_model m j input).2.2 = e := by
        rw [Prod.mk.injEq] at ha
        exact ha.2
      have hblk : e ≠ RS_BLOCKED := by
        intro hcontra
        subst hcontra
        simp [rs_is_terminal_error] at he
      have hfin := rs_job_iter_model_terminal m j input (by rw [hres]; exact hblk)
      rw [hres] at hfin
      cases b with
      | zero => omega
      | succ b =>
        rw [List.getElem?_cons_succ] at hp
        rw [hfin] at hp
        exact rs_job_run_finished m e rest b p hp
    | succ a =>
      cases b with
      | zero => omega
      | succ b =>
        rw [List.getElem?_cons_succ] at ha hp
        exact ih _ a b (by omega) ha p hp

/-- Witness for sticky terminal errors: a job that fails immediately with
`RS_IO_ERROR` keeps answering `RS_IO_ERROR` with no output. -/
theorem terminal_errors_sticky_witness :
    (0 : Nat) < 2 ∧ rs_is_terminal_error RS_IO_ERROR = true ∧
    (∀ p, (rs_job_run ⟨Unit, fun _ => 0, fun _ _ => ([], .inr RS_IO_ERROR)⟩
        (.running () []) [[1], [2], [3]])[2]? = some p → p = ([], RS_IO_ERROR)) :=
  ⟨by norm_num, by decide,
    terminal_errors_sticky ⟨Unit, fun _ => 0, fun _ _ => ([], .inr RS_IO_ERROR)⟩
      (.running () []) [[1], [2], [3]] 0 2 (by norm_num) RS_IO_ERROR (by decide)
      [] (by rfl)⟩

end Librsync

namespace Librsync

open rs_result

/-! ## Patch COPY loop and the basis-read callback contract
(`rs_copy_cb` in `librsync.h`; spec section 4.9) -/

/-- The patch COPY loop.  Modelled from the spec, section 4.9: invoke the
basis-read callback, which updates the length to what it actually made
available; if that is less than requested, loop, advancing the position
and shrinking the remaining length, streaming each returned buffer to
output.  A callback that claims more than requested, or yields nothing
for a positive request, is an error (`RS_CORRUPT`, spec section 9). -/
def rs_copy_loop (cb : Nat → Nat → Nat × List Nat) :
    Nat → Nat → Nat → Except rs_result (List Nat)
  | _, _, 0 => .ok []
  | 0, _, _ + 1 => .error RS_INTERNAL_ERROR
  | fuel + 1, pos, len + 1 =>
    if (cb pos (len + 1)).1 = 0 ∨ len + 1 < (cb pos (len + 1)).1 then .error RS_CORRUPT
    else
      (rs_copy_loop cb fuel (pos + (cb pos (len + 1)).1)
          (len + 1 - (cb pos (len + 1)).1)).map
        (fun out => (cb pos (len + 1)).2.take (cb pos (len + 1)).1 ++ out)

/-- The model basis-read callback over an in-memory basis: returns at
most `c` bytes per call (the callback's own buffer capacity), never more
than requested and never beyond the end of the basis — exactly the
`rs_copy_cb` contract documented in `librsync.h`. -/
def rs_basis_cb (old : List Nat) (c : Nat) : Nat → Nat → Nat × List Nat :=
  fun pos len =>
    (min (min c len) (old.length - pos),
      (old.drop pos).take (min (min c len) (old.length - pos)))

/-- C9.  Basis-read callback contract: for every callback that reports at
least one and at most the requested number of bytes (with a buffer of
exactly that many), the COPY loop streams exactly the full requested
length; and with the model basis callback (any per-call cap), the loop
reconstructs exactly the requested slice of the basis. -/
theorem copy_cb_loop_streams_all :
    (∀ cb : Nat → Nat → Nat × List Nat,
      (∀ pos len, 1 ≤ len → 1 ≤ (cb pos len).1 ∧ (cb pos len).1 ≤ len ∧
        (cb pos len).2.length = (cb pos len).1) →
      ∀ fuel pos len, len ≤ fuel →
        ∃ out, rs_copy_loop cb fuel pos len = .ok out ∧ out.length = len) ∧
    (∀ old (c pos len fuel : Nat), 1 ≤ c → len ≤ fuel → pos + len ≤ old.length →
      rs_copy_loop (rs_basis_cb old c) fuel pos len = .ok ((old.drop pos).take len)) := by
  constructor
  · intro cb hcb fuel
    induction fuel with
    | zero =>
      intro pos len hl
      have : len = 0 := by omega
      subst this
      exact ⟨[], rfl, rfl⟩
    | succ fuel ih =>
      intro pos len hl
      cases len with
      | zero => exact ⟨[], rfl, rfl⟩
      | succ len =>
        obtain ⟨hg1, hg2, hg3⟩ := hcb pos (len + 1) (by omega)
        rw [rs_copy_loop, if_neg (by omega)]
        obtain ⟨out, hout, hlen⟩ := ih (pos + (cb pos (len + 1)).1)
          (len + 1 - (cb pos (len + 1)).1) (by omega)
        refine ⟨(cb pos (len + 1)).2.take (cb pos (len + 1)).1 ++ out, ?_, ?_⟩
        · rw [hout]
          rfl
        · simp only [List.length_append, List.length_take, hg3, hlen]
          omega
  · intro old c pos len fuel hc hf hb
    induction fuel generalizing pos len with
    | zero =>
      have : len = 0 := by omega
      subst this
      rfl
    | succ fuel ih =>
      cases len with
      | zero => rfl
      | succ len =>
        have hgot : (rs_basis_cb old c pos (len + 1)).1 = min c (len + 1) := by
          simp only [rs_basis_cb]
          omega
        rw [rs_copy_loop, if_neg (by rw [hgot]; omega)]
        rw [ih (pos + (rs_basis_cb old c pos (len + 1)).1)
          (len + 1 - (rs_basis_cb old c pos (len + 1)).1)
          (by rw [hgot]; omega) (by rw [hgot]; omega)]
        have hbuf : (rs_basis_cb old c pos (len + 1)).2.take
            (rs_basis_cb old c pos (len + 1)).1
            = (old.drop pos).take (min c (len + 1)) := by
          simp only [rs_basis_cb]
          rw [List.take_take]
          congr 1
          omega
        rw [hbuf, hgot]
        have hjoin : (old.drop pos).take (min c (len + 1))
              ++ (old.drop (pos + min c (len + 1))).take (len + 1 - min c (len + 1))
            = (old.drop pos).take (len + 1) := by
          have hdd : old.drop (pos + min c (len + 1))
              = (old.drop pos).drop (min c (len + 1)) := by
            rw [List.drop_drop]
          rw [hdd, ← List.take_add]
          congr 1
          omega
        rw [← hjoin]
        rfl

/-- Witness for the COPY-loop theorem: a capped basis callback streams a
five-byte range in two-byte chunks. -/
theorem copy_cb_loop_witness :
    (1 : Nat) ≤ 2 ∧ (5 : Nat) ≤ 9 ∧ (2 : Nat) + 5 ≤ ([3, 1, 4, 1, 5, 9, 2, 6] : List Nat).length ∧
    rs_copy_loop (rs_basis_cb [3, 1, 4, 1, 5, 9, 2, 6] 2) 9 2 5
      = .ok ((([3, 1, 4, 1, 5, 9, 2, 6] : List Nat).drop 2).take 5) :=
  ⟨by norm_num, by norm_num, by norm_num,
    copy_cb_loop_streams_all.2 [3, 1, 4, 1, 5, 9, 2, 6] 2 2 5 9
      (by norm_num) (by norm_num) (by norm_num)⟩

end Librsync

namespace Librsync

open rs_result

/-! ## Signature arguments (`rs_sig_args` / `rs_sig_begin` in
`librsync.h`) -/

/-- Modelled from the spec (section 6): the recommended block length —
2048 (`RS_DEFAULT_BLOCK_LEN`) when the file size is unknown, otherwise
about `sqrt(old_fsize * 8)` rounded up to a power of two. -/
def rs_sig_args_block_len (old_fsize : Int) : Nat :=
  if old_fsize < 0 then RS_DEFAULT_BLOCK_LEN
  else 2 ^ Nat.clog 2 (Nat.sqrt (8 * old_fsize.toNat))

/-- Modelled from the spec (section 6) and `RS_DEFAULT_MIN_STRONG_LEN` in
`librsync.h`: the minimum safe strong-sum length — the conservative 12
bytes when the file size is unknown; for a known size, enough bytes to
push the false-match probability below `2^-10` across the signature
(block count times file size pairings), clamped to at least one byte. -/
def rs_sig_args_min_strong_len (old_fsize : Int) (block_len : Nat) : Nat :=
  if old_fsize < 0 then RS_DEFAULT_MIN_STRONG_LEN
  else
    max 1 ((Nat.clog 2 ((old_fsize.toNat / max 1 block_len + 1)
      * (old_fsize.toNat + 1)) + 10 + 7) / 8)

/-- The magic actually used: `0` selects the recommended
`RS_RK_BLAKE2_SIG_MAGIC` (doc comment of `rs_sig_args` in `librsync.h`;
spec section 3 marks RabinKarp+BLAKE2b "recommended"). -/
def rs_sig_args_magic (magic : Nat) : Nat :=
  if magic = 0 then RS_RK_BLAKE2_SIG_MAGIC else magic

/-- The block length actually used: `0` selects the recommended value. -/
def rs_sig_args_bl (old_fsize : Int) (block_len : Nat) : Nat :=
  if block_len = 0 then rs_sig_args_block_len old_fsize else block_len

/-- The strong-sum length actually used: `0` selects the maximum for the
format, `-1` the minimum safe length (doc comment of `rs_sig_args` in
`librsync.h`). -/
def rs_sig_args_sl (old_fsize : Int) (m bl : Nat) (strong_len : Int) : Nat :=
  if strong_len = 0 then rs_max_strong_len m
  else if strong_len = -1 then
    min (rs_max_strong_len m) (rs_sig_args_min_strong_len old_fsize bl)
  else strong_len.toNat

/-- `rs_sig_args` (declared in `librsync.h`; body modelled from its doc
comment): resolve the sentinel arguments to concrete recommended values
and validate them, failing with `RS_PARAM_ERROR` on an unknown magic or
an out-of-range strong-sum length.  Returns the concrete
`(magic, block_len, strong_len)` the signature job will use. -/
def rs_sig_args (old_fsize : Int) (magic : Nat) (block_len : Nat) (strong_len : Int) :
    Except rs_result (Nat × Nat × Nat) :=
  if ¬ rs_is_sig_magic (rs_sig_args_magic magic) then .error RS_PARAM_ERROR
  else if strong_len < -1 ∨
      rs_sig_args_sl old_fsize (rs_sig_args_magic magic)
        (rs_sig_args_bl old_fsize block_len) strong_len = 0 ∨
      rs_max_strong_len (rs_sig_args_magic magic) <
        rs_sig_args_sl old_fsize (rs_sig_args_magic magic)
          (rs_sig_args_bl old_fsize block_len) strong_len then
    .error RS_PARAM_ERROR
  else
    .ok (rs_sig_args_magic magic, rs_sig_args_bl old_fsize block_len,
      rs_sig_args_sl old_fsize (rs_sig_args_magic magic)
        (rs_sig_args_bl old_fsize block_len) strong_len)

/-- `rs_sig_begin` (declared in `librsync.h`): starts a signature job
with the same sentinel conventions, the file size being unknown.  The
model returns the parameters the job will use. -/
def rs_sig_begin (block_len : Nat) (strong_len : Int) (sig_magic : Nat) :
    Except rs_result (Nat × Nat × Nat) :=
  rs_sig_args (-1) sig_magic block_len strong_len

theorem rs_max_strong_len_ge (m : Nat) : 16 ≤ rs_max_strong_len m := by
  unfold rs_max_strong_len
  cases rs_magic_strong_kind m <;> norm_num

theorem rs_sig_args_bl_pos (old_fsize : Int) (block_len : Nat) :
    1 ≤ rs_sig_args_bl old_fsize block_len := by
  rw [rs_sig_args_bl]
  split_ifs with h
  · rw [rs_sig_args_block_len]
    split_ifs with hf
    · norm_num [RS_DEFAULT_BLOCK_LEN]
    · exact Nat.one_le_two_pow
  · omega

/-- C10.  Sentinel parameters at the public interface: `strong_len = 0`
means the maximum strong-sum length for the magic, `strong_len = -1` the
minimum safe length; `magic = 0` and `block_len = 0` mean the recommended
defaults (2048 and minimum strong length 12 when the file size is
unknown); every successful call returns concrete positive values in
place of the sentinels, and the strong-sum length never exceeds 32. -/
theorem sig_args_sentinels :
    rs_sig_args (-1) 0 0 (-1) = .ok (RS_RK_BLAKE2_SIG_MAGIC, 2048, 12) ∧
    (∀ m, rs_is_sig_magic m = true →
      rs_sig_args (-1) m 0 0 = .ok (m, 2048, rs_max_strong_len m)) ∧
    (∀ f m bl sl m' b' s', rs_sig_args f m bl sl = .ok (m', b', s') →
      rs_is_sig_magic m' = true ∧ 1 ≤ b' ∧ 1 ≤ s' ∧ s' ≤ rs_max_strong_len m' ∧
      s' ≤ 32) ∧
    rs_sig_begin 0 0 0 = .ok (RS_RK_BLAKE2_SIG_MAGIC, 2048, 32) ∧
    rs_sig_begin 0 (-1) 0 = .ok (RS_RK_BLAKE2_SIG_MAGIC, 2048, 12) := by
  refine ⟨rfl, ?_, ?_, rfl, rfl⟩
  · intro m hm
    have hm0 : m ≠ 0 := by
      intro hcontra
      subst hcontra
      simp [rs_is_sig_magic, RS_MD4_SIG_MAGIC, RS_BLAKE2_SIG_MAGIC,
        RS_RK_MD4_SIG_MAGIC, RS_RK_BLAKE2_SIG_MAGIC] at hm
    have hmagic : rs_sig_args_magic m = m := by
      rw [rs_sig_args_magic, if_neg hm0]
    have hge := rs_max_strong_len_ge m
    have hsl : rs_sig_args_sl (-1) m (rs_sig_args_bl (-1) 0) 0
        = rs_max_strong_len m := by
      rw [rs_sig_args_sl, if_pos rfl]
    have hbl : rs_sig_args_bl (-1) 0 = 2048 := rfl
    rw [rs_sig_args, hmagic, hsl, hbl]
    rw [if_neg (by simp [hm]), if_neg (by push_neg; refine ⟨by norm_num, by omega, le_refl _⟩)]
  · intro f m bl sl m' b' s' hok
    rw [rs_sig_args] at hok
    split_ifs at hok with h1 h2
    simp only [Except.ok.injEq, Prod.mk.injEq] at hok
    obtain ⟨rfl, rfl, rfl⟩ := hok
    push_neg at h2
    obtain ⟨hs1, hs2, hs3⟩ := h2
    have hmax32 := rs_max_strong_len_le (rs_sig_args_magic m)
    exact ⟨by simpa using h1, rs_sig_args_bl_pos f bl, by omega, hs3, by omega⟩

/-- Witness for the sentinel-parameter theorem: the maximum strong length
for the MD4 format is 16 and is selected by `strong_len = 0`. -/
theorem sig_args_sentinels_witness :
    rs_is_sig_magic RS_MD4_SIG_MAGIC = true ∧
    rs_sig_args (-1) RS_MD4_SIG_MAGIC 0 0 = .ok (RS_MD4_SIG_MAGIC, 2048, 16) :=
  ⟨by decide, by
    have h := sig_args_sentinels.2.1 RS_MD4_SIG_MAGIC (by decide)
    simpa [rs_max_strong_len, rs_magic_strong_kind, RS_MD4_SIG_MAGIC,
      RS_RK_MD4_SIG_MAGIC] using h⟩

end Librsync
